import Mathlib

/-!
Verification of the chombo-discharge Kinetic Monte Carlo (KMC) core.

Shallow embedding of the KMC sources:
  Source/KineticMonteCarlo/CD_KMCDualStateImplem.H
  Source/KineticMonteCarlo/CD_KMCSingleStateImplem.H
  Source/KineticMonteCarlo/CD_KMCDualStateReactionImplem.H
  Source/KineticMonteCarlo/CD_KMCSingleStateReactionImplem.H
  Source/KineticMonteCarlo/CD_KMCSolverImplem.H

Modelling conventions:
* The C++ `Real` (double) is modelled as `ℚ` with exact arithmetic.  The two
  floating-point limit constants that the code uses,
  `std::numeric_limits<Real>::max()` and `std::numeric_limits<Real>::min()`,
  are modelled by the exact values of `DBL_MAX = (2 - 2^-52)·2^1023` and
  `DBL_MIN = 2^-1022`.
* The population type `T` (instantiated at `long long` by the solver, cf. the
  `Random::getPoisson<long long>` calls) is modelled as `ℤ`, with
  `std::numeric_limits<T>::max()` modelled by `2^63 - 1`.
* Randomness (`Random::getUniformReal01`, `Random::getPoisson`) and the
  external dense linear solver (`dgesv_`) are not part of this repository;
  they are modelled as oracle functions supplied as explicit arguments, so
  that theorems quantify over every possible sequence of draws / solver
  replies.  For the waiting-time computation `log(1.0/u)/A` the code first
  replaces `u` by `DBL_MIN + getUniformReal01()`, which always lies in
  `(0, 1)`; the transcendental value `log(1.0/u)` is itself taken as the
  oracle draw (the map `u ↦ log(1/u)` is a bijection from `(0,1)` onto
  `(0,∞)`, so quantifying over the log-value is equivalent).
* C++ reads through `operator[]` that may be out of bounds (undefined
  behaviour) are modelled with `Option`: a `none` result marks a run that hit
  undefined behaviour.
-/

namespace KMC

/-- Exact value of `std::numeric_limits<double>::max()`. -/
def realMax : ℚ := mkRat (((2^1024 - 2^971 : ℕ) : ℤ)) 1

/-- Exact value of `std::numeric_limits<double>::min()` (smallest positive
normal double). -/
def realMinPos : ℚ := mkRat 1 (2^1022)

/-- Value of `std::numeric_limits<long long>::max()`, the `T` instantiation
used by the solver. -/
def Tmax : ℤ := 2^63 - 1

/-! ### Generic list helpers used by the embedding -/

/-- Sum of a list of rationals (the C++ accumulation loops `A += p`). -/
def listSum : List ℚ → ℚ
  | [] => 0
  | x :: xs => x + listSum xs

/-- Running minimum of a list, seeded with `a` (the C++ idiom
`v = min(v, x)` starting from a sentinel). -/
def minList {α : Type} [LinearOrder α] (a : α) : List α → α
  | [] => a
  | x :: xs => minList (min a x) xs

/-- Keep-last deduplication of a list of species indices.  Both
`std::map`-key iteration (sorted, unique keys) and this list enumerate every
distinct element exactly once; all uses below combine the elements with
commutative, associative, idempotent operations, so only the underlying set
matters. -/
def dedupKL : List ℕ → List ℕ
  | [] => []
  | a :: rest => if a ∈ rest then dedupKL rest else a :: dedupKL rest

/-- Helper for `cppUnique`: drop elements equal to the previously kept one. -/
def cppUniqueAux (prev : ℕ) : List ℕ → List ℕ
  | [] => []
  | b :: rest => if b = prev then cppUniqueAux prev rest else b :: cppUniqueAux b rest

/-- Model of `std::unique` on a list (removes *consecutive* duplicates only),
as used on the concatenated reactant list in `getNonCriticalTimeStep`. -/
def cppUnique : List ℕ → List ℕ
  | [] => []
  | a :: rest => a :: cppUniqueAux a rest

/-- Model of C `llround`: round to nearest, ties away from zero. -/
def llround (q : ℚ) : ℤ := if 0 ≤ q then ⌊q + 1/2⌋ else ⌈q - 1/2⌉

/-- Pointwise application of `x_i += n * chg i` starting at index `i0`.  The
C++ loops `for (s : stateChangeMap) state[s.first] += n * s.second` touch
exactly the map keys; since `chg` below is the net state change (`0` off the
map's support), adding `n * chg i` at every index is the same update. -/
def advanceFrom (n : ℤ) (chg : ℕ → ℤ) : ℕ → List ℤ → List ℤ
  | _, [] => []
  | i, x :: xs => (x + n * chg i) :: advanceFrom n chg (i + 1) xs

/-! ### States (CD_KMCDualStateImplem.H, CD_KMCSingleStateImplem.H) -/

/-- `KMCDualState<T>`: reactive and non-reactive population vectors. -/
structure KMCDualState where
  reactiveState : List ℤ
  nonReactiveState : List ℤ
deriving DecidableEq, Repr

/-- `KMCDualState::isValidState`: every entry of both classes is `≥ 0`. -/
def KMCDualState.isValidState (s : KMCDualState) : Bool :=
  s.reactiveState.all (fun p => decide (0 ≤ p)) &&
    s.nonReactiveState.all (fun p => decide (0 ≤ p))

/-- `KMCDualState::linearOut`: reactive entries followed by non-reactive
entries. -/
def KMCDualState.linearOut (s : KMCDualState) : List ℤ :=
  s.reactiveState ++ s.nonReactiveState

/-- `KMCDualState::linearIn`: overwrite the two classes from a flat vector
(the first `numReactive` entries, then the next `numNonReactive` entries). -/
def KMCDualState.linearIn (s : KMCDualState) (l : List ℤ) : KMCDualState :=
  ⟨l.take s.reactiveState.length,
   (l.drop s.reactiveState.length).take s.nonReactiveState.length⟩

/-- `KMCSingleState<T>`: one combined population vector. -/
structure KMCSingleState where
  state : List ℤ
deriving DecidableEq, Repr

/-- `KMCSingleState::isValidState`. -/
def KMCSingleState.isValidState (s : KMCSingleState) : Bool :=
  s.state.all (fun p => decide (0 ≤ p))

/-! ### Reactions (CD_KMCDualStateReactionImplem.H,
CD_KMCSingleStateReactionImplem.H) -/

/-- `KMCDualStateReaction<State, T>`: reactant list, reactive product list,
non-reactive product list, and the mutable rate constant. -/
structure KMCDualStateReaction where
  lhsReactives : List ℕ
  rhsReactives : List ℕ
  rhsNonReactives : List ℕ
  rate : ℚ
deriving DecidableEq, Repr

namespace KMCDualStateReaction

/-- Net reactive state change of species `i` (`m_reactiveStateChange`):
`computeStateChanges` decrements once per occurrence of `i` among the
reactants and increments once per occurrence among the reactive products, so
the map entry (with `0` for indices off the map, as returned by
`getStateChange`) equals the difference of the occurrence counts. -/
def reactiveStateChange (r : KMCDualStateReaction) (i : ℕ) : ℤ :=
  (r.rhsReactives.count i : ℤ) - (r.lhsReactives.count i : ℤ)

/-- Net non-reactive state change of species `i`
(`m_nonReactiveStateChange`): one increment per occurrence among the
non-reactive products. -/
def nonReactiveStateChange (r : KMCDualStateReaction) (i : ℕ) : ℤ :=
  (r.rhsNonReactives.count i : ℤ)

/-- `m_propensityFactor`: product of `1/k!` over the distinct reactant
species, where `k` is the multiplicity of the species among the reactants
(`computeStateChanges` builds the multiplicity map `reactantNumbers` and
multiplies `1.0/factorial(k)` per entry). -/
def propensityFactor (r : KMCDualStateReaction) : ℚ :=
  (dedupKL r.lhsReactives).foldl
    (fun acc s => acc * (1 / (Nat.factorial (r.lhsReactives.count s) : ℚ))) 1

/-- `KMCDualStateReaction::getStateChange`. -/
def getStateChange (r : KMCDualStateReaction) (i : ℕ) : ℤ :=
  reactiveStateChange r i

/-- `KMCDualStateReaction::population`: the reactive population of species
`a_reactant`, read through the reaction's indexing. -/
def population (_r : KMCDualStateReaction) (i : ℕ) (s : KMCDualState) : ℤ :=
  s.reactiveState.getD i 0

/-- Accumulation loop of `KMCDualStateReaction::propensity`: multiply the
running value by the population of each reactant occurrence, decrementing the
(copied) population after each factor. -/
def propensityGo : List ℤ → ℚ → List ℕ → ℚ
  | _, A, [] => A
  | st, A, rr :: rest =>
    propensityGo (st.set rr (st.getD rr 0 - 1)) (A * (st.getD rr 0 : ℚ)) rest

/-- `KMCDualStateReaction::propensity`:
`rate * propensityFactor * Π (successively decremented populations)`. -/
def propensity (r : KMCDualStateReaction) (s : KMCDualState) : ℚ :=
  propensityGo s.reactiveState (r.rate * propensityFactor r) r.lhsReactives

/-- `KMCDualStateReaction::computeCriticalNumberOfReactions`: minimum of
`population / |ν|` (C++ `T` division, i.e. truncation) over the map entries
with negative net change, seeded with `numeric_limits<T>::max()`.  The map
keys are the distinct species occurring among reactants or reactive
products. -/
def computeCriticalNumberOfReactions (r : KMCDualStateReaction)
    (s : KMCDualState) : ℤ :=
  (dedupKL (r.lhsReactives ++ r.rhsReactives)).foldl
    (fun Lj i =>
      let nuIJ := reactiveStateChange r i
      if nuIJ < 0 then min Lj (Int.tdiv (s.reactiveState.getD i 0) |nuIJ|)
      else Lj)
    Tmax

/-- `KMCDualStateReaction::advanceState`: add `numFirings * stateChange` to
every species of both classes. -/
def advanceState (r : KMCDualStateReaction) (n : ℤ) (s : KMCDualState) :
    KMCDualState :=
  ⟨advanceFrom n (reactiveStateChange r) 0 s.reactiveState,
   advanceFrom n (nonReactiveStateChange r) 0 s.nonReactiveState⟩

end KMCDualStateReaction

/-- `KMCSingleStateReaction<State, T>`: reactant and product lists plus the
rate constant. -/
structure KMCSingleStateReaction where
  reactants : List ℕ
  products : List ℕ
  rate : ℚ
deriving DecidableEq, Repr

namespace KMCSingleStateReaction

/-- Net state change of species `i` (`m_stateChange`). -/
def stateChange (r : KMCSingleStateReaction) (i : ℕ) : ℤ :=
  (r.products.count i : ℤ) - (r.reactants.count i : ℤ)

/-- `KMCSingleStateReaction::computeCriticalNumberOfReactions`. -/
def computeCriticalNumberOfReactions (r : KMCSingleStateReaction)
    (s : KMCSingleState) : ℤ :=
  (dedupKL (r.reactants ++ r.products)).foldl
    (fun Lj i =>
      let nuIJ := stateChange r i
      if nuIJ < 0 then min Lj (Int.tdiv (s.state.getD i 0) |nuIJ|)
      else Lj)
    Tmax

/-- `KMCSingleStateReaction::advanceState`. -/
def advanceState (r : KMCSingleStateReaction) (n : ℤ) (s : KMCSingleState) :
    KMCSingleState :=
  ⟨advanceFrom n (stateChange r) 0 s.state⟩

end KMCSingleStateReaction

/-! ### Solver (CD_KMCSolverImplem.H), instantiated at the dual state/reaction
types -/

/-- Solver parameters (`KMCSolver::setSolverParameters`). -/
structure SolverParams where
  Ncrit : ℤ
  numSSA : ℤ
  maxIter : ℤ
  eps : ℚ
  SSAlim : ℚ
  exitTol : ℚ
deriving Repr

open KMCDualStateReaction

/-- `KMCSolver::propensities(State, ReactionList)`. -/
def propensities (s : KMCDualState) (rs : List KMCDualStateReaction) :
    List ℚ :=
  rs.map (fun r => propensity r s)

/-- `KMCSolver::totalPropensity(State, ReactionList)`. -/
def totalPropensity (s : KMCDualState) (rs : List KMCDualStateReaction) : ℚ :=
  listSum (propensities s rs)

/-- `KMCSolver::partitionReactions(State, ReactionList)`: reactions with
`computeCriticalNumberOfReactions < Ncrit` go to the first (critical) list,
the rest to the second (non-critical) list, preserving order. -/
def partitionReactions (Ncrit : ℤ) (s : KMCDualState)
    (rs : List KMCDualStateReaction) :
    List KMCDualStateReaction × List KMCDualStateReaction :=
  match rs with
  | [] => ([], [])
  | r :: rest =>
    let p := partitionReactions Ncrit s rest
    if computeCriticalNumberOfReactions r s < Ncrit then (r :: p.1, p.2)
    else (p.1, r :: p.2)

/-- `KMCSolver::getNu`: per reaction, zero a linearized copy of the state,
fire the reaction once, and difference the linearizations. -/
def getNu (s : KMCDualState) (rs : List KMCDualStateReaction) :
    List (List ℤ) :=
  rs.map (fun r =>
    let preState := s.linearOut.map (fun _ => (0 : ℤ))
    let state := s.linearIn preState
    let postState := (advanceState r 1 state).linearOut
    List.zipWith (fun a b => a - b) postState preState)

/-- Body of the per-reactant loop in `KMCSolver::getNonCriticalTimeStep`:
accumulate `mu = Σ|ν_ij·a_j|` and `sigma2 = Σ|ν_ij²·a_j|` over the
non-critical reactions, form `f = max(eps·Xi/gi, 1)` with `gi = 4`, and take
`min(dt1, dt2)`, where `dt1`/`dt2` keep their `numeric_limits<Real>::max()`
initialisation unless `mu`/`sigma2` exceed `numeric_limits<Real>::min()`. -/
def speciesTimeStep (eps : ℚ) (Xi : ℤ) (i : ℕ)
    (rps : List (KMCDualStateReaction × ℚ)) : ℚ :=
  let mu := listSum (rps.map (fun rp => |((getStateChange rp.1 i : ℤ) : ℚ) * rp.2|))
  let sigma2 := listSum
    (rps.map (fun rp =>
      |((getStateChange rp.1 i : ℤ) : ℚ) * ((getStateChange rp.1 i : ℤ) : ℚ) * rp.2|))
  let f := max (eps * (Xi : ℚ) / 4) 1
  let dt1 := if realMinPos < mu then f / mu else realMax
  let dt2 := if realMinPos < sigma2 then f * f / sigma2 else realMax
  min dt1 dt2

/-- `KMCSolver::getNonCriticalTimeStep(State, ReactionList, propensities)`:
concatenate the reactant lists of the non-critical reactions, apply
`std::unique` (consecutive duplicates only), and fold the per-species bound
over the resulting indices, skipping species whose population is not
positive.  The population is read through `a_nonCriticalReactions[0]`. -/
def getNonCriticalTimeStep (eps : ℚ) (s : KMCDualState)
    (rs : List KMCDualStateReaction) (props : List ℚ) : ℚ :=
  match rs with
  | [] => realMax
  | r0 :: _ =>
    let allReactants := cppUnique ((rs.map (fun r => r.lhsReactives)).flatten)
    allReactants.foldl
      (fun dt i =>
        let Xi := population r0 i s
        if 0 < Xi then min dt (speciesTimeStep eps Xi i (rs.zip props)) else dt)
      realMax

/-- Selection loop of `KMCSolver::stepSSA`: return the first index whose
running propensity sum reaches the threshold, `none` if the loop ends with
`r = numeric_limits<size_t>::max()` (which the C++ then dereferences out of
bounds). -/
def ssaSelect (thr : ℚ) : ℚ → ℕ → List ℚ → Option ℕ
  | _, _, [] => none
  | acc, i, p :: rest =>
    let acc2 := acc + p
    if thr ≤ acc2 then some i else ssaSelect thr acc2 (i + 1) rest

/-- `KMCSolver::stepSSA(State, ReactionList, propensities)` with the uniform
draw `u` made explicit.  A `none` result models the out-of-bounds access
`a_reactions[r]` performed when no index satisfies the threshold test. -/
def stepSSA (u : ℚ) (rs : List KMCDualStateReaction) (props : List ℚ)
    (s : KMCDualState) : Option KMCDualState :=
  if rs.length = 0 then some s
  else
    let A := listSum props
    match ssaSelect (u * A) 0 0 props with
    | some r =>
      match rs[r]? with
      | some rx => some (advanceState rx 1 s)
      | none => none
    | none => none

/-- Firing loop shared by the tau-leaping steps: for the `k`-th reaction draw
a Poisson variate with mean `a_k · dt` from the oracle `pois` and advance the
state by that many firings. -/
def applyFirings (pois : ℕ → ℚ → ℕ) (dt : ℚ) :
    ℕ → List (KMCDualStateReaction × ℚ) → KMCDualState → KMCDualState
  | _, [], s => s
  | k, rp :: rest, s =>
    applyFirings pois dt (k + 1) rest
      (advanceState rp.1 ((pois k (rp.2 * dt) : ℕ) : ℤ) s)

/-- `KMCSolver::stepExplicitEuler(State, ReactionList, dt)`: propensities are
computed once from the incoming state, then each reaction is advanced by a
Poisson number of firings. -/
def stepExplicitEuler (pois : ℕ → ℚ → ℕ) (rs : List KMCDualStateReaction)
    (dt : ℚ) (s : KMCDualState) : KMCDualState :=
  if rs.length = 0 then s
  else applyFirings pois dt 0 (rs.zip (propensities s rs)) s

/-- `KMCSolver::stepMidpoint(State, ReactionList, dt)`: deterministically
predict a midpoint state with `ceil(0.5 · a_i · dt)` firings per reaction,
recompute propensities there, then Poisson-fire the original state. -/
def stepMidpoint (pois : ℕ → ℚ → ℕ) (rs : List KMCDualStateReaction) (dt : ℚ)
    (s : KMCDualState) : KMCDualState :=
  if rs.length = 0 then s
  else
    let props := propensities s rs
    let Xdagger := (rs.zip props).foldl
      (fun st rp => advanceState rp.1 ⌈(1/2 : ℚ) * rp.2 * dt⌉ st) s
    applyFirings pois dt 0 (rs.zip (propensities Xdagger rs)) s

/-- Pairwise propensity correction of `KMCSolver::stepPRC` for one reaction
`j` (paired with its uncorrected propensity `ak_j`):
`aj_j = ak_j + Σ_k 0.5·dt·ak_k·(a_j(x + ν_k) - ak_j)`. -/
def prcCorrected (dt : ℚ) (s : KMCDualState)
    (rsak : List (KMCDualStateReaction × ℚ)) (rjak : KMCDualStateReaction × ℚ) :
    ℚ :=
  rsak.foldl
    (fun acc rk =>
      acc + 1/2 * dt * rk.2 * (propensity rjak.1 (advanceState rk.1 1 s) - rjak.2))
    rjak.2

/-- `KMCSolver::stepPRC(State, ReactionList, dt)`. -/
def stepPRC (pois : ℕ → ℚ → ℕ) (rs : List KMCDualStateReaction) (dt : ℚ)
    (s : KMCDualState) : KMCDualState :=
  if rs.length = 0 then s
  else
    let ak := propensities s rs
    let aj := (rs.zip ak).map (fun rj => prcCorrected dt s (rs.zip ak) rj)
    applyFirings pois dt 0 (rs.zip aj) s

/-! ### advanceTau -/

/-- Combined outer/inner loop of `KMCSolver::advanceTau`.  One trial step per
fuel unit: the `n`-th trial result is `trial n curDt s` (`none` modelling a
non-terminating propagator); a valid trial state is committed (appended to
the accumulator `acc` of committed states) and the time advances, an invalid
trial halves `curDt` and retries from the committed state. -/
def advanceTauLoop (trial : ℕ → ℚ → KMCDualState → Option KMCDualState) :
    ℕ → ℕ → ℚ → ℚ → ℚ → KMCDualState → List KMCDualState →
    List KMCDualState × Option KMCDualState
  | 0, _, _, _, _, _, acc => (acc, none)
  | fuel + 1, n, dt, curTime, curDt, s, acc =>
    match trial n curDt s with
    | none => (acc, none)
    | some st =>
      if st.isValidState then
        let curTime2 := curTime + curDt
        if curTime2 < dt then
          advanceTauLoop trial fuel (n + 1) dt curTime2 (dt - curTime2) st
            (acc ++ [st])
        else (acc ++ [st], some st)
      else advanceTauLoop trial fuel (n + 1) dt curTime (curDt / 2) s acc

/-- `KMCSolver::advanceTau(State, ReactionList, dt, propagator)` with the
propagator abstracted into the attempt-indexed `trial` function.  Returns the
list of committed states and (fuel permitting) the final state. -/
def advanceTau (trial : ℕ → ℚ → KMCDualState → Option KMCDualState) (fuel : ℕ)
    (rs : List KMCDualStateReaction) (dt : ℚ) (s : KMCDualState) :
    List KMCDualState × Option KMCDualState :=
  if rs.length = 0 then ([], some s)
  else if dt ≤ 0 then ([], some s)
  else advanceTauLoop trial fuel 0 dt 0 dt s []

/-- `KMCLeapPropagator` (declared in CD_KMCSolver.H; the four enumerators are
the ones the solver dispatches on).  `unknown` models a value of the
underlying type outside the declared enumerators, i.e. an unrecognized
selector. -/
inductive KMCLeapPropagator where
  | ExplicitEuler
  | Midpoint
  | PRC
  | ImplicitEuler
  | unknown
deriving DecidableEq, Repr

/-! ### Implicit Euler (KMCSolver::stepImplicitEuler) -/

/-- Sum `Σ_j ν_j[i] · a_j · dt` over paired state-change vectors and
propensities. -/
def ieSumNu (nuaj : List (List ℤ × ℚ)) (dt : ℚ) (i : ℕ) : ℚ :=
  listSum (nuaj.map (fun p => ((p.1.getD i 0 : ℤ) : ℚ) * p.2 * dt))

/-- Constant term `c` of the implicit-Euler system:
`c_i = eulerOut_i - Σ_j ν_j[i]·a_j(x)·dt`. -/
def ieConstantTerm (N : ℕ) (nu : List (List ℤ)) (ajX : List ℚ) (dt : ℚ)
    (eulerOut : List ℤ) : List ℚ :=
  (List.range N).map (fun i => ((eulerOut.getD i 0 : ℤ) : ℚ) - ieSumNu (nu.zip ajX) dt i)

/-- The `computeF` lambda of `stepImplicitEuler`:
`F_i = X_i - c_i - dt·Σ_j ν_j[i]·a_j(round X)`, where the propensities at the
rounded state are those of the solver's full reaction list `mRs`
(`this->propensities(stateXit)` uses `m_reactions`). -/
def ieComputeF (mRs : List KMCDualStateReaction) (s : KMCDualState) (N : ℕ)
    (nu : List (List ℤ)) (dt : ℚ) (C : List ℚ) (X : List ℚ) : List ℚ :=
  let linState : List ℤ := X.map llround
  let stateXit := s.linearIn linState
  let ajXit := propensities stateXit mRs
  (List.range N).map (fun i =>
    X.getD i 0 - C.getD i 0 -
      listSum ((nu.zip ajXit).map (fun p => dt * ((p.1.getD i 0 : ℤ) : ℚ) * p.2)))

/-- Max-norm used by `stepImplicitEuler` (`computeNorm`). -/
def ieMaxNorm (F : List ℚ) : ℚ := F.foldl (fun m x => max m |x|) 0

/-- Finite-difference Jacobian of `stepImplicitEuler`, stored as the list of
its `N` columns (the C++ fills `J[i + j*N]`, column-major): column `j` holds
`(F(X + pert·e_j) - F(X)) / pert` with `pert = max(0.01·X_j, 1) ≥ 1`; in
exact arithmetic the C++ denominator `X2[j] - X1[j]` equals `pert`. -/
def ieJacobian (computeF : List ℚ → List ℚ) (N : ℕ) (X : List ℚ) :
    List (List ℚ) :=
  (List.range N).map (fun j =>
    let pert := max (1/100 * X.getD j 0) 1
    let F1 := computeF X
    let F2 := computeF (X.set j (X.getD j 0 + pert))
    (List.range N).map (fun i => (F2.getD i 0 - F1.getD i 0) / pert))

/-- Newton iteration of `stepImplicitEuler`.  Per iteration: build the
Jacobian and residual, ask the linear-solve oracle (`dgesv_`) for the
increment (`none` models `INFO != 0`, which clears `converged` and breaks),
update `X := X - d`, and exit once the residual max-norm falls below
`exitTol` relative to `initNorm` (the `initNorm ≠ 0` guard mirrors IEEE
division: when `initNorm = 0` the C++ quotient is `inf`/`NaN` and the
comparison is false).  Exhausting `maxIter` leaves `converged = true`. -/
def newtonLoop (solve : ℕ → List (List ℚ) → List ℚ → Option (List ℚ))
    (computeF : List ℚ → List ℚ) (jac : List ℚ → List (List ℚ))
    (initNorm exitTol : ℚ) : ℕ → ℕ → List ℚ → List ℚ × Bool
  | 0, _, X => (X, true)
  | rem + 1, k, X =>
    match solve k (jac X) (computeF X) with
    | none => (X, false)
    | some d =>
      let X2 := (List.range X.length).map (fun i => X.getD i 0 - d.getD i 0)
      let nrm := ieMaxNorm (computeF X2)
      if initNorm ≠ 0 ∧ nrm / initNorm < exitTol then (X2, true)
      else newtonLoop solve computeF jac initNorm exitTol rem (k + 1) X2

/-- Newton stage of `stepImplicitEuler`, given the explicit-Euler presample
`es`: assemble the constant term, `computeF`, the finite-difference
Jacobian and the initial residual norm, and run the Newton loop from
`X = eulerOut`.  Returns the final iterate and the `converged` flag. -/
def ieNewtonResult (solve : ℕ → List (List ℚ) → List ℚ → Option (List ℚ))
    (maxIter : ℤ) (exitTol : ℚ) (mRs rs : List KMCDualStateReaction) (dt : ℚ)
    (s : KMCDualState) (es : KMCDualState) : List ℚ × Bool :=
  let nu := getNu s rs
  let ajX := propensities s rs
  let N := s.linearOut.length
  let eulerOut := es.linearOut
  let C := ieConstantTerm N nu ajX dt eulerOut
  let X0 : List ℚ := (List.range N).map (fun i => ((eulerOut.getD i 0 : ℤ) : ℚ))
  let computeF := ieComputeF mRs s N nu dt C
  let initNorm := ieMaxNorm (computeF (List.replicate N 0))
  newtonLoop solve computeF (ieJacobian computeF N) initNorm exitTol
    maxIter.toNat 0 X0

/-- `KMCSolver::stepImplicitEuler(State, ReactionList, dt)`.  Oracles: `pois`
supplies the Poisson draws of the explicit-Euler presample (per
`advanceTau` attempt), `innerFuel` bounds that presample's retry loop, and
`solve` is the dense linear solver.  `mRs` is the solver's member reaction
list `m_reactions` (used by `computeF`), `rs` the argument list.  If
`converged` survives the Newton loop the rounded final iterate is written
back, otherwise every linearized entry is set to `-1`. -/
def stepImplicitEuler (pois : ℕ → ℕ → ℚ → ℕ) (innerFuel : ℕ)
    (solve : ℕ → List (List ℚ) → List ℚ → Option (List ℚ)) (maxIter : ℤ)
    (exitTol : ℚ) (mRs rs : List KMCDualStateReaction) (dt : ℚ)
    (s : KMCDualState) : Option KMCDualState :=
  let N := s.linearOut.length
  match (advanceTau (fun n curDt st => some (stepExplicitEuler (pois n) rs curDt st))
      innerFuel rs dt s).2 with
  | none => none
  | some es =>
    let res := ieNewtonResult solve maxIter exitTol mRs rs dt s es
    let out : List ℤ := if res.2 then res.1.map llround else List.replicate N (-1)
    some (s.linearIn out)

/-! ### Propagator dispatch -/

/-- Per-invocation randomness/solver oracles for one concrete leap step. -/
structure StepOracle where
  pois : ℕ → ℚ → ℕ
  eePois : ℕ → ℕ → ℚ → ℕ
  solve : ℕ → List (List ℚ) → List ℚ → Option (List ℚ)
  innerFuel : ℕ

/-- The switch on `a_leapPropagator` inside `advanceTau`'s retry loop.  For
`unknown` the C++ `default:` case merely `break`s out of the switch, leaving
the trial state an unmodified copy (`some s`). -/
def leapOf (maxIter : ℤ) (exitTol : ℚ) (p : KMCLeapPropagator)
    (mRs : List KMCDualStateReaction) (so : StepOracle)
    (rs : List KMCDualStateReaction) (dt : ℚ) (s : KMCDualState) :
    Option KMCDualState :=
  match p with
  | .ExplicitEuler => some (stepExplicitEuler so.pois rs dt s)
  | .Midpoint => some (stepMidpoint so.pois rs dt s)
  | .PRC => some (stepPRC so.pois rs dt s)
  | .ImplicitEuler =>
    stepImplicitEuler so.eePois so.innerFuel so.solve maxIter exitTol mRs rs dt s
  | .unknown => some s

/-- `KMCSolver::advanceTau(State, ReactionList, dt, propagator)` with the
concrete propagator switch, the attempt-indexed oracles `Os`, and the
solver's member list `mRs` (needed by the implicit-Euler residual). -/
def advanceTauP (maxIter : ℤ) (exitTol : ℚ) (Os : ℕ → StepOracle)
    (p : KMCLeapPropagator) (fuel : ℕ) (mRs rs : List KMCDualStateReaction)
    (dt : ℚ) (s : KMCDualState) : List KMCDualState × Option KMCDualState :=
  advanceTau (fun n curDt st => leapOf maxIter exitTol p mRs (Os n) rs curDt st)
    fuel rs dt s

/-! ### advanceHybrid -/

/-- Uniform-draw oracles of the hybrid driver: `w k` is the value of
`log(1/(DBL_MIN + u))` for the `k`-th `getCriticalTimeStep` call, `u k` the
`k`-th uniform draw consumed by `stepSSA`. -/
structure HybridOracle where
  w : ℕ → ℚ
  u : ℕ → ℚ

/-- Indices of the next unconsumed oracle draws (`w`, `u`) and leap
invocation. -/
structure Counters where
  iw : ℕ
  iu : ℕ
  il : ℕ
deriving Repr

/-- States committed into `a_state` during `advanceHybrid`, split by commit
site: `ssaCommits` are the in-place `stepSSA` mutations of the pure-SSA
branch (committed without a validity check), `leapCommits` the states
committed after passing `isValidState` in the two leap branches. -/
structure CommitTrace where
  ssaCommits : List KMCDualState
  leapCommits : List KMCDualState
deriving Repr

/-- The bounded SSA sub-loop of `advanceHybrid`
(`while (dtSSA < curDt && numSSA < m_numSSA)`).  Each iteration recomputes
the propensities of the full reaction set, draws the waiting time
`dtReact = w / A` (for `A = 0` the IEEE quotient is `+inf`, so the firing
test is false and `dtSSA` is set to `curDt`), and either fires one SSA
reaction directly into the committed state or ends the sub-step.  The fuel
argument is called with `numSSA.toNat + 1`, which the loop structure can
never exhaust (each recursive call increments `numSSA`, bounded by
`m_numSSA`), so the fuel-out branch is unreachable. -/
def ssaLoop (numSSAmax : ℤ) (O : HybridOracle)
    (rs : List KMCDualStateReaction) (curDt : ℚ) :
    ℕ → ℤ → ℚ → KMCDualState → Counters → CommitTrace →
    CommitTrace × Option (KMCDualState × ℚ × Counters)
  | 0, _, dtSSA, s, cnt, tr => (tr, some (s, dtSSA, cnt))
  | fuel + 1, numSSA, dtSSA, s, cnt, tr =>
    if dtSSA < curDt ∧ numSSA < numSSAmax then
      let props := propensities s rs
      let A := listSum props
      if A = 0 then (tr, some (s, curDt, {cnt with iw := cnt.iw + 1}))
      else
        let dtReact := O.w cnt.iw / A
        let cnt2 := {cnt with iw := cnt.iw + 1}
        if dtSSA + dtReact < curDt then
          match stepSSA (O.u cnt2.iu) rs props s with
          | none => (tr, none)
          | some s2 =>
            ssaLoop numSSAmax O rs curDt fuel (numSSA + 1) (dtSSA + dtReact) s2
              {cnt2 with iu := cnt2.iu + 1}
              {tr with ssaCommits := tr.ssaCommits ++ [s2]}
        else (tr, some (s, curDt, cnt2))
    else (tr, some (s, dtSSA, cnt))

/-- The step-rejection loop (`while (!validStep)`) of `advanceHybrid`.  The
critical/non-critical partition, their propensities and `dtCrit` are fixed by
the enclosing outer iteration; only `dtNonCrit` is halved on rejection.
Returns the new committed state, the new `curTime`, and the oracle
counters. -/
def innerLoop (par : SolverParams) (O : HybridOracle)
    (leap : ℕ → List KMCDualStateReaction → ℚ → KMCDualState → Option KMCDualState)
    (rs crit nonCrit : List KMCDualStateReaction) (propsCrit : List ℚ)
    (dt : ℚ) :
    ℕ → KMCDualState → ℚ → ℚ → ℚ → Counters → CommitTrace →
    CommitTrace × Option (KMCDualState × ℚ × Counters)
  | 0, _, _, _, _, _, tr => (tr, none)
  | fuel + 1, s, curTime, dtCrit, dtNonCrit, cnt, tr =>
    let curDt := min (dt - curTime) (min dtCrit dtNonCrit)
    let nonCriticalOnly :=
      dtNonCrit < dtCrit ∨ crit.length = 0 ∨ dt - curTime < dtCrit
    if nonCriticalOnly then
      let A := totalPropensity s rs
      if A * curDt < par.SSAlim then
        match ssaLoop par.numSSA O rs curDt (par.numSSA.toNat + 1) 0 0 s cnt tr with
        | (tr2, none) => (tr2, none)
        | (tr2, some (s2, dtSSA, cnt2)) => (tr2, some (s2, curTime + dtSSA, cnt2))
      else
        match leap cnt.il nonCrit curDt s with
        | none => (tr, none)
        | some st =>
          let cnt2 := {cnt with il := cnt.il + 1}
          if st.isValidState then
            ({tr with leapCommits := tr.leapCommits ++ [st]},
              some (st, curTime + curDt, cnt2))
          else
            innerLoop par O leap rs crit nonCrit propsCrit dt fuel s curTime
              dtCrit (dtNonCrit / 2) cnt2 tr
    else
      match stepSSA (O.u cnt.iu) crit propsCrit s with
      | none => (tr, none)
      | some s1 =>
        let cnt1 := {cnt with iu := cnt.iu + 1}
        match leap cnt1.il nonCrit curDt s1 with
        | none => (tr, none)
        | some st =>
          let cnt2 := {cnt1 with il := cnt1.il + 1}
          if st.isValidState then
            ({tr with leapCommits := tr.leapCommits ++ [st]},
              some (st, curTime + curDt, cnt2))
          else
            innerLoop par O leap rs crit nonCrit propsCrit dt fuel s curTime
              dtCrit (dtNonCrit / 2) cnt2 tr

/-- Outer substepping loop (`while (curTime < a_dt)`) of `advanceHybrid`:
partition the reactions, compute `dtCrit` (the vector overload of
`getCriticalTimeStep` adds `numeric_limits<Real>::min()` to the propensity
sum) and `dtNonCrit`, then run the step-rejection loop. -/
def outerLoop (par : SolverParams) (O : HybridOracle)
    (leap : ℕ → List KMCDualStateReaction → ℚ → KMCDualState → Option KMCDualState)
    (rs : List KMCDualStateReaction) (dt : ℚ) :
    ℕ → KMCDualState → ℚ → Counters → CommitTrace → CommitTrace × Option KMCDualState
  | 0, _, _, _, tr => (tr, none)
  | fuel + 1, s, curTime, cnt, tr =>
    if curTime < dt then
      let pr := partitionReactions par.Ncrit s rs
      let propsCrit := propensities s pr.1
      let dtCrit := O.w cnt.iw / (realMinPos + listSum propsCrit)
      let cnt2 := {cnt with iw := cnt.iw + 1}
      let dtNonCrit := getNonCriticalTimeStep par.eps s pr.2 (propensities s pr.2)
      match innerLoop par O leap rs pr.1 pr.2 propsCrit dt fuel s curTime dtCrit
          dtNonCrit cnt2 tr with
      | (tr2, none) => (tr2, none)
      | (tr2, some (s2, curTime2, cnt3)) => outerLoop par O leap rs dt fuel s2 curTime2 cnt3 tr2
    else (tr, some s)

/-- Functional version of `KMCSolver::advanceHybrid` (the overload taking the
`std::function` propagator `leap`).  Returns the commit trace together with
the final state (`none` on fuel exhaustion or undefined behaviour). -/
def advanceHybridFun (par : SolverParams) (O : HybridOracle)
    (leap : ℕ → List KMCDualStateReaction → ℚ → KMCDualState → Option KMCDualState)
    (fuel : ℕ) (rs : List KMCDualStateReaction) (dt : ℚ) (s : KMCDualState) :
    CommitTrace × Option KMCDualState :=
  outerLoop par O leap rs dt fuel s 0 ⟨0, 0, 0⟩ ⟨[], []⟩

/-- `KMCSolver::advanceHybrid(State, ReactionList, dt, leapPropagator)`: the
dispatching switch.  The four known propagators wrap the corresponding step
function into the functional overload; the `default:` case calls
`MayDay::Error`, i.e. aborts the process, modelled as `none`. -/
def advanceHybrid (par : SolverParams) (O : HybridOracle) (Os : ℕ → StepOracle)
    (p : KMCLeapPropagator) (fuel : ℕ) (mRs rs : List KMCDualStateReaction)
    (dt : ℚ) (s : KMCDualState) : Option (CommitTrace × Option KMCDualState) :=
  match p with
  | .ExplicitEuler =>
    some (advanceHybridFun par O
      (fun n rs2 dt2 s2 => some (stepExplicitEuler (Os n).pois rs2 dt2 s2)) fuel rs dt s)
  | .Midpoint =>
    some (advanceHybridFun par O
      (fun n rs2 dt2 s2 => some (stepMidpoint (Os n).pois rs2 dt2 s2)) fuel rs dt s)
  | .PRC =>
    some (advanceHybridFun par O
      (fun n rs2 dt2 s2 => some (stepPRC (Os n).pois rs2 dt2 s2)) fuel rs dt s)
  | .ImplicitEuler =>
    some (advanceHybridFun par O
      (fun n rs2 dt2 s2 =>
        stepImplicitEuler (Os n).eePois (Os n).innerFuel (Os n).solve par.maxIter
          par.exitTol mRs rs2 dt2 s2) fuel rs dt s)
  | .unknown => none

/-! ### Claim-side (specification) definitions.

These restate the specification's wording independently of the code path, to
be compared with the definitions above. -/

open KMCDualStateReaction

/-- Specification reading of the propensity product: multiply the population
of each reactant occurrence, decrementing the population of that species
after each factor (sampling without replacement). -/
def decProd : List ℕ → List ℤ → ℚ
  | [], _ => 1
  | rr :: rest, st =>
    (st.getD rr 0 : ℚ) * decProd rest (st.set rr (st.getD rr 0 - 1))

/-- Specification reading of `computeCriticalNumberOfReactions` for the dual
state: minimum of `⌊population/|ν|⌋` over all species (of the state) whose
net state change is negative, `Tmax` for the empty minimum. -/
def specCritNum (r : KMCDualStateReaction) (s : KMCDualState) : ℤ :=
  minList Tmax
    (((List.range s.reactiveState.length).filter
        (fun i => decide (reactiveStateChange r i < 0))).map
      (fun i => Int.fdiv (s.reactiveState.getD i 0) |reactiveStateChange r i|))

/-- Specification reading of `computeCriticalNumberOfReactions` for the
single state. -/
def specCritNumSingle (r : KMCSingleStateReaction) (s : KMCSingleState) : ℤ :=
  minList Tmax
    (((List.range s.state.length).filter
        (fun i => decide (KMCSingleStateReaction.stateChange r i < 0))).map
      (fun i => Int.fdiv (s.state.getD i 0) |KMCSingleStateReaction.stateChange r i|))

/-- Specification reading of a reaction's state-change vector in linearized
layout: the cached net reactive changes followed by the cached net
non-reactive changes, `0` for unaffected species. -/
def specNu (s : KMCDualState) (r : KMCDualStateReaction) : List ℤ :=
  (List.range s.reactiveState.length).map (reactiveStateChange r) ++
    (List.range s.nonReactiveState.length).map (nonReactiveStateChange r)

/-- Species touched by at least one of the given reactions (consumed or
produced in the reactive class). -/
def touchedSpecies (rs : List KMCDualStateReaction) : List ℕ :=
  dedupKL ((rs.map (fun r => r.lhsReactives ++ r.rhsReactives)).flatten)

/-- Specification reading of the non-critical time-step bound as claimed:
the minimum over every species touched by a non-critical reaction of
`min(f/mu, f²/sigma2)` with `f = max(eps·X_i/4, 1)` (a zero `mu` or `sigma2`
poses no bound, i.e. contributes the maximum representable Real). -/
def specNonCriticalTimeStep (eps : ℚ) (s : KMCDualState)
    (rs : List KMCDualStateReaction) (props : List ℚ) : ℚ :=
  minList realMax ((touchedSpecies rs).map (fun i =>
    let Xi : ℤ := s.reactiveState.getD i 0
    let mu := listSum ((rs.zip props).map
      (fun rp => |((getStateChange rp.1 i : ℤ) : ℚ) * rp.2|))
    let sigma2 := listSum ((rs.zip props).map
      (fun rp => |((getStateChange rp.1 i : ℤ) : ℚ) *
        ((getStateChange rp.1 i : ℤ) : ℚ) * rp.2|))
    let f := max (eps * (Xi : ℚ) / 4) 1
    min (if mu = 0 then realMax else f / mu)
      (if sigma2 = 0 then realMax else f * f / sigma2)))

/-- The bound `getNonCriticalTimeStep` actually computes, in closed form:
the minimum of the per-species bound over the distinct species occurring
among the *reactants* of the non-critical reactions whose population is
positive. -/
def reactantNonCritBound (eps : ℚ) (s : KMCDualState)
    (rs : List KMCDualStateReaction) (props : List ℚ) : ℚ :=
  match rs with
  | [] => realMax
  | r0 :: _ =>
    minList realMax
      (((dedupKL ((rs.map (fun r => r.lhsReactives)).flatten)).filter
          (fun i => decide (0 < population r0 i s))).map
        (fun i => speciesTimeStep eps (population r0 i s) i (rs.zip props)))

/-! ### Helper lemmas -/

theorem listSum_nonneg {l : List ℚ} (h : ∀ x ∈ l, 0 ≤ x) : 0 ≤ listSum l := by
  induction l with
  | nil => simp [listSum]
  | cons x xs ih =>
    have hx := h x (List.mem_cons_self x xs)
    have hxs := ih (fun y hy => h y (List.mem_cons_of_mem x hy))
    simpa [listSum] using add_nonneg hx hxs

theorem minList_le_init {α : Type} [LinearOrder α] (a : α) (l : List α) :
    minList a l ≤ a := by
  induction l generalizing a with
  | nil => exact le_refl a
  | cons x xs ih => exact le_trans (ih (min a x)) (min_le_left a x)

theorem minList_le_mem {α : Type} [LinearOrder α] {x : α} {l : List α}
    (a : α) (hx : x ∈ l) : minList a l ≤ x := by
  induction l generalizing a with
  | nil => cases hx
  | cons y ys ih =>
    rcases List.mem_cons.1 hx with rfl | hmem
    · exact le_trans (minList_le_init (min a x) ys) (min_le_right a x)
    · exact ih (min a y) hmem

theorem le_minList {α : Type} [LinearOrder α] {b a : α} {l : List α}
    (ha : b ≤ a) (h : ∀ x ∈ l, b ≤ x) : b ≤ minList a l := by
  induction l generalizing a with
  | nil => exact ha
  | cons x xs ih =>
    exact ih (le_min ha (h x (List.mem_cons_self x xs)))
      (fun y hy => h y (List.mem_cons_of_mem x hy))

theorem minList_eq_of_mem_iff {α : Type} [LinearOrder α] (a : α)
    {l1 l2 : List α} (h : ∀ x, x ∈ l1 ↔ x ∈ l2) : minList a l1 = minList a l2 := by
  apply le_antisymm
  · exact le_minList (minList_le_init a l1)
      (fun x hx => minList_le_mem a ((h x).2 hx))
  · exact le_minList (minList_le_init a l2)
      (fun x hx => minList_le_mem a ((h x).1 hx))

theorem foldl_min_filter {α : Type} [LinearOrder α] (P : ℕ → Prop)
    [DecidablePred P] (f : ℕ → α) (keys : List ℕ) (a : α) :
    keys.foldl (fun acc i => if P i then min acc (f i) else acc) a
      = minList a ((keys.filter (fun i => decide (P i))).map f) := by
  induction keys generalizing a with
  | nil => rfl
  | cons k rest ih =>
    have hfilter : (k :: rest).filter (fun i => decide (P i)) =
        if P k then k :: rest.filter (fun i => decide (P i))
        else rest.filter (fun i => decide (P i)) := by
      simp [List.filter_cons]
    by_cases hk : P k
    · rw [List.foldl_cons, if_pos hk, ih, hfilter, if_pos hk, List.map_cons]
      rfl
    · rw [List.foldl_cons, if_neg hk, ih, hfilter, if_neg hk]

theorem mem_dedupKL {x : ℕ} : ∀ {l : List ℕ}, x ∈ dedupKL l ↔ x ∈ l := by
  intro l
  induction l with
  | nil => simp [dedupKL]
  | cons a rest ih =>
    by_cases ha : a ∈ rest
    · rw [dedupKL, if_pos ha, ih, List.mem_cons]
      constructor
      · exact fun h => Or.inr h
      · rintro (rfl | h)
        · exact ha
        · exact h
    · rw [dedupKL, if_neg ha, List.mem_cons, ih, List.mem_cons]

theorem mem_cppUniqueAux {x prev : ℕ} :
    ∀ {l : List ℕ}, x ∈ cppUniqueAux prev l → x ∈ l := by
  intro l
  induction l generalizing prev with
  | nil => simp [cppUniqueAux]
  | cons b rest ih =>
    by_cases hb : b = prev
    · rw [cppUniqueAux, if_pos hb]
      exact fun h => List.mem_cons_of_mem b (ih h)
    · rw [cppUniqueAux, if_neg hb, List.mem_cons, List.mem_cons]
      rintro (rfl | h)
      · exact Or.inl rfl
      · exact Or.inr (ih h)

theorem mem_cppUniqueAux_of_mem {x : ℕ} (prev : ℕ) :
    ∀ {l : List ℕ}, x ∈ l → x = prev ∨ x ∈ cppUniqueAux prev l := by
  intro l
  induction l generalizing prev with
  | nil => simp
  | cons b rest ih =>
    intro hx
    rcases List.mem_cons.1 hx with rfl | hmem
    · by_cases hb : x = prev
      · exact Or.inl hb
      · rw [cppUniqueAux, if_neg hb]
        exact Or.inr (List.mem_cons_self x (cppUniqueAux x rest))
    · by_cases hb : b = prev
      · rw [cppUniqueAux, if_pos hb]
        subst hb
        exact ih b hmem
      · rw [cppUniqueAux, if_neg hb]
        rcases ih b hmem with rfl | h
        · exact Or.inr (List.mem_cons_self x (cppUniqueAux x rest))
        · exact Or.inr (List.mem_cons_of_mem b h)

theorem mem_cppUnique {x : ℕ} {l : List ℕ} : x ∈ cppUnique l ↔ x ∈ l := by
  cases l with
  | nil => simp [cppUnique]
  | cons a rest =>
    rw [cppUnique, List.mem_cons, List.mem_cons]
    constructor
    · rintro (rfl | h)
      · exact Or.inl rfl
      · exact Or.inr (mem_cppUniqueAux h)
    · rintro (rfl | hmem)
      · exact Or.inl rfl
      · rcases mem_cppUniqueAux_of_mem a hmem with rfl | h
        · exact Or.inl rfl
        · exact Or.inr h

theorem advanceFrom_cancel (n : ℤ) (chg : ℕ → ℤ) :
    ∀ (i : ℕ) (xs : List ℤ),
      advanceFrom (-n) chg i (advanceFrom n chg i xs) = xs := by
  intro i xs
  induction xs generalizing i with
  | nil => rfl
  | cons x rest ih =>
    simp only [advanceFrom, ih]
    congr 1
    ring

theorem advanceFrom_length (n : ℤ) (chg : ℕ → ℤ) :
    ∀ (i : ℕ) (xs : List ℤ), (advanceFrom n chg i xs).length = xs.length := by
  intro i xs
  induction xs generalizing i with
  | nil => rfl
  | cons x rest ih => simp [advanceFrom, ih]

theorem advanceFrom_replicate_zero (n : ℤ) (chg : ℕ → ℤ) :
    ∀ (m i : ℕ),
      advanceFrom n chg i (List.replicate m 0)
        = (List.range' i m).map (fun j => n * chg j) := by
  intro m
  induction m with
  | zero => intro i; rfl
  | succ m ih =>
    intro i
    simp only [List.replicate_succ, advanceFrom, List.range'_succ, List.map_cons,
      zero_add, ih]

theorem zipWith_sub_replicate_zero :
    ∀ (l : List ℤ), List.zipWith (fun a b => a - b) l (List.replicate l.length 0) = l := by
  intro l
  induction l with
  | nil => rfl
  | cons x rest ih => simp [List.replicate_succ, List.zipWith_cons_cons, ih]

theorem propensityGo_eq_decProd :
    ∀ (l : List ℕ) (st : List ℤ) (A : ℚ),
      propensityGo st A l = A * decProd l st := by
  intro l
  induction l with
  | nil => intro st A; simp [propensityGo, decProd]
  | cons rr rest ih =>
    intro st A
    simp only [propensityGo, decProd, ih]
    ring

/-! ### Claims -/

/-- Claim C8: for every reaction (dual- and single-state variant), every
state, and every non-negative firing count `n`, `advanceState(state, n)`
followed by `advanceState(state, -n)` restores every population entry in
both classes exactly, with no rounding drift. -/
theorem stoichiometry_round_trip (r : KMCDualStateReaction)
    (rS : KMCSingleStateReaction) (n : ℤ) (s : KMCDualState)
    (sS : KMCSingleState) (hn : 0 ≤ n) :
    advanceState r (-n) (advanceState r n s) = s ∧
      KMCSingleStateReaction.advanceState rS (-n)
        (KMCSingleStateReaction.advanceState rS n sS) = sS := by
  constructor
  · cases s with
    | mk re nr => simp [advanceState, advanceFrom_cancel]
  · cases sS with
    | mk st => simp [KMCSingleStateReaction.advanceState, advanceFrom_cancel]

theorem stoichiometry_round_trip_witness :
    (0 : ℤ) ≤ 2 ∧
      (advanceState ⟨[0, 0], [1], [0], 3⟩ (-2)
          (advanceState ⟨[0, 0], [1], [0], 3⟩ 2 ⟨[5, 3], [2]⟩) = ⟨[5, 3], [2]⟩ ∧
        KMCSingleStateReaction.advanceState ⟨[0, 0], [1], 3⟩ (-2)
          (KMCSingleStateReaction.advanceState ⟨[0, 0], [1], 3⟩ 2 ⟨[5, 3]⟩) = ⟨[5, 3]⟩) :=
  ⟨by decide,
    stoichiometry_round_trip ⟨[0, 0], [1], [0], 3⟩ ⟨[0, 0], [1], 3⟩ 2 ⟨[5, 3], [2]⟩
      ⟨[5, 3]⟩ (by decide)⟩

/-- Claim C5: `partitionReactions` returns exactly the reactions with
`computeCriticalNumberOfReactions < Ncrit` (in order) as the critical list
and exactly the others as the non-critical list, and the two lists together
are a permutation of the input list: no duplication, no omission. -/
theorem partition_reactions_complete (Ncrit : ℤ) (s : KMCDualState)
    (rs : List KMCDualStateReaction) :
    partitionReactions Ncrit s rs
        = (rs.filter (fun r => decide (computeCriticalNumberOfReactions r s < Ncrit)),
           rs.filter (fun r => !decide (computeCriticalNumberOfReactions r s < Ncrit)))
      ∧ ((partitionReactions Ncrit s rs).1 ++ (partitionReactions Ncrit s rs).2).Perm rs := by
  have h : partitionReactions Ncrit s rs
      = (rs.filter (fun r => decide (computeCriticalNumberOfReactions r s < Ncrit)),
         rs.filter (fun r => !decide (computeCriticalNumberOfReactions r s < Ncrit))) := by
    induction rs with
    | nil => rfl
    | cons r rest ih =>
      by_cases hr : computeCriticalNumberOfReactions r s < Ncrit <;>
        simp [partitionReactions, List.filter_cons, hr, ih]
  refine ⟨h, ?_⟩
  rw [h]
  exact List.filter_append_perm _ rs

/-- Claim C2: the propensity equals
`rate * propensityFactor * (successively decremented population product)`,
and in particular a self-reaction consuming species `i` twice has propensity
`rate * 0.5 * N * (N-1)` where `N` is the population of `i`. -/
theorem propensity_combinatorics (r : KMCDualStateReaction) (s : KMCDualState)
    (i : ℕ) (hi : i < s.reactiveState.length) :
    propensity r s = r.rate * propensityFactor r * decProd r.lhsReactives s.reactiveState ∧
      propensity ⟨[i, i], r.rhsReactives, r.rhsNonReactives, r.rate⟩ s
        = r.rate * (1/2) * (s.reactiveState.getD i 0 : ℚ) *
            ((s.reactiveState.getD i 0 : ℚ) - 1) := by
  constructor
  · rw [propensity]
    exact propensityGo_eq_decProd _ _ _
  · have hfac : propensityFactor ⟨[i, i], r.rhsReactives, r.rhsNonReactives, r.rate⟩
        = 1/2 := by
      have hded : dedupKL [i, i] = [i] := by
        simp [dedupKL]
      rw [propensityFactor]
      simp only [hded]
      have hcount : List.count i [i, i] = 2 := by
        simp [List.count_cons]
      simp only [List.foldl_cons, List.foldl_nil, hcount]
      norm_num [Nat.factorial]
    have hset : (s.reactiveState.set i (s.reactiveState.getD i 0 - 1)).getD i 0
        = s.reactiveState.getD i 0 - 1 := by
      simp [List.getD_eq_getElem?_getD, List.getElem?_set, hi]
    rw [propensity]
    rw [propensityGo_eq_decProd]
    simp only [decProd, hset]
    rw [hfac]
    push_cast
    ring

theorem propensity_combinatorics_witness :
    0 < (⟨[4, 7], []⟩ : KMCDualState).reactiveState.length ∧
      (propensity ⟨[0], [1], [], 2⟩ ⟨[4, 7], []⟩
          = (⟨[0], [1], [], 2⟩ : KMCDualStateReaction).rate *
              propensityFactor ⟨[0], [1], [], 2⟩ *
              decProd (⟨[0], [1], [], 2⟩ : KMCDualStateReaction).lhsReactives
                (⟨[4, 7], []⟩ : KMCDualState).reactiveState ∧
        propensity ⟨[0, 0], (⟨[0], [1], [], 2⟩ : KMCDualStateReaction).rhsReactives,
              (⟨[0], [1], [], 2⟩ : KMCDualStateReaction).rhsNonReactives,
              (⟨[0], [1], [], 2⟩ : KMCDualStateReaction).rate⟩ ⟨[4, 7], []⟩
          = (⟨[0], [1], [], 2⟩ : KMCDualStateReaction).rate * (1/2) *
              ((⟨[4, 7], []⟩ : KMCDualState).reactiveState.getD 0 0 : ℚ) *
              (((⟨[4, 7], []⟩ : KMCDualState).reactiveState.getD 0 0 : ℚ) - 1)) :=
  ⟨by decide, propensity_combinatorics ⟨[0], [1], [], 2⟩ ⟨[4, 7], []⟩ 0 (by decide)⟩

/-- Value of `getD` at an in-range index is an element of the list. -/
theorem getD_mem_of_lt {l : List ℤ} {i : ℕ} (h : i < l.length) :
    l.getD i 0 ∈ l := by
  rw [List.getD_eq_getElem?_getD, List.getElem?_eq_getElem h]
  exact List.getElem_mem h

/-- The critical-number fold over any key list covering the negative-change
species equals the floor-division minimum over all species of the state. -/
theorem critFold_eq_spec (chg : ℕ → ℤ) (pops : List ℤ) (keys : List ℕ)
    (hpos : ∀ x ∈ pops, 0 ≤ x)
    (hneg : ∀ i, chg i < 0 → i ∈ keys ∧ i < pops.length) :
    keys.foldl
        (fun Lj i => if chg i < 0 then min Lj (Int.tdiv (pops.getD i 0) |chg i|) else Lj)
        Tmax
      = minList Tmax
          (((List.range pops.length).filter (fun i => decide (chg i < 0))).map
            (fun i => Int.fdiv (pops.getD i 0) |chg i|)) := by
  rw [foldl_min_filter (fun i => chg i < 0)
    (fun i => Int.tdiv (pops.getD i 0) |chg i|) keys Tmax]
  have hdiv : ∀ i, chg i < 0 →
      Int.tdiv (pops.getD i 0) |chg i| = Int.fdiv (pops.getD i 0) |chg i| := by
    intro i hic
    have hp : 0 ≤ pops.getD i 0 := hpos _ (getD_mem_of_lt (hneg i hic).2)
    have hb : (0 : ℤ) ≤ |chg i| := abs_nonneg _
    rw [Int.tdiv_eq_ediv hp hb, Int.fdiv_eq_ediv _ hb]
  have hmap : ((keys.filter (fun i => decide (chg i < 0))).map
        (fun i => Int.tdiv (pops.getD i 0) |chg i|))
      = ((keys.filter (fun i => decide (chg i < 0))).map
        (fun i => Int.fdiv (pops.getD i 0) |chg i|)) := by
    apply List.map_congr_left
    intro i hi
    exact hdiv i (by simpa using (List.mem_filter.1 hi).2)
  rw [hmap]
  apply minList_eq_of_mem_iff
  intro x
  simp only [List.mem_map, List.mem_filter, List.mem_range, decide_eq_true_eq]
  constructor
  · rintro ⟨i, ⟨_, hic⟩, rfl⟩
    exact ⟨i, ⟨(hneg i hic).2, hic⟩, rfl⟩
  · rintro ⟨i, ⟨_, hic⟩, rfl⟩
    exact ⟨i, ⟨(hneg i hic).1, hic⟩, rfl⟩

/-- Claim C7: for non-negative populations,
`computeCriticalNumberOfReactions` (both variants) equals the minimum over
the species with negative net state change of `⌊population/|ν|⌋`, and equals
the maximum representable `T` value when no species has a negative net
change. -/
theorem critical_number_of_reactions (r : KMCDualStateReaction)
    (rS : KMCSingleStateReaction) (s : KMCDualState) (sS : KMCSingleState)
    (hpos : ∀ x ∈ s.reactiveState, 0 ≤ x)
    (hposS : ∀ x ∈ sS.state, 0 ≤ x)
    (hwf : ∀ i ∈ r.lhsReactives, i < s.reactiveState.length)
    (hwfS : ∀ i ∈ rS.reactants, i < sS.state.length) :
    (computeCriticalNumberOfReactions r s = specCritNum r s ∧
      ((∀ i, ¬ reactiveStateChange r i < 0) →
        computeCriticalNumberOfReactions r s = Tmax)) ∧
      (KMCSingleStateReaction.computeCriticalNumberOfReactions rS sS
          = specCritNumSingle rS sS ∧
        ((∀ i, ¬ KMCSingleStateReaction.stateChange rS i < 0) →
          KMCSingleStateReaction.computeCriticalNumberOfReactions rS sS = Tmax)) := by
  have hnegD : ∀ i, reactiveStateChange r i < 0 →
      i ∈ dedupKL (r.lhsReactives ++ r.rhsReactives) ∧ i < s.reactiveState.length := by
    intro i hic
    have hcount : 0 < r.lhsReactives.count i := by
      by_contra hc
      have h0 : r.lhsReactives.count i = 0 := by omega
      rw [reactiveStateChange, h0] at hic
      omega
    have hmem : i ∈ r.lhsReactives := List.count_pos_iff.1 hcount
    exact ⟨mem_dedupKL.2 (List.mem_append_left _ hmem), hwf i hmem⟩
  have hnegS : ∀ i, KMCSingleStateReaction.stateChange rS i < 0 →
      i ∈ dedupKL (rS.reactants ++ rS.products) ∧ i < sS.state.length := by
    intro i hic
    have hcount : 0 < rS.reactants.count i := by
      by_contra hc
      have h0 : rS.reactants.count i = 0 := by omega
      rw [KMCSingleStateReaction.stateChange, h0] at hic
      omega
    have hmem : i ∈ rS.reactants := List.count_pos_iff.1 hcount
    exact ⟨mem_dedupKL.2 (List.mem_append_left _ hmem), hwfS i hmem⟩
  have hD : computeCriticalNumberOfReactions r s = specCritNum r s :=
    critFold_eq_spec (reactiveStateChange r) s.reactiveState _ hpos hnegD
  have hS : KMCSingleStateReaction.computeCriticalNumberOfReactions rS sS
      = specCritNumSingle rS sS :=
    critFold_eq_spec (KMCSingleStateReaction.stateChange rS) sS.state _ hposS hnegS
  refine ⟨⟨hD, ?_⟩, hS, ?_⟩
  · intro hnone
    rw [hD, specCritNum]
    have : (List.range s.reactiveState.length).filter
        (fun i => decide (reactiveStateChange r i < 0)) = [] := by
      rw [List.filter_eq_nil_iff]
      intro i _
      simp [hnone i]
    rw [this]
    rfl
  · intro hnone
    rw [hS, specCritNumSingle]
    have : (List.range sS.state.length).filter
        (fun i => decide (KMCSingleStateReaction.stateChange rS i < 0)) = [] := by
      rw [List.filter_eq_nil_iff]
      intro i _
      simp [hnone i]
    rw [this]
    rfl

theorem critical_number_of_reactions_witness :
    ((∀ x ∈ [(4 : ℤ), 9], 0 ≤ x) ∧ (∀ x ∈ [(6 : ℤ)], 0 ≤ x) ∧
        (∀ i ∈ [0, 0, 1], i < ([(4 : ℤ), 9] : List ℤ).length) ∧
        (∀ i ∈ [0], i < ([(6 : ℤ)] : List ℤ).length)) ∧
      ((computeCriticalNumberOfReactions ⟨[0, 0, 1], [1], [], 1⟩ ⟨[4, 9], []⟩
            = specCritNum ⟨[0, 0, 1], [1], [], 1⟩ ⟨[4, 9], []⟩ ∧
          ((∀ i, ¬ reactiveStateChange ⟨[0, 0, 1], [1], [], 1⟩ i < 0) →
            computeCriticalNumberOfReactions ⟨[0, 0, 1], [1], [], 1⟩ ⟨[4, 9], []⟩ = Tmax)) ∧
        (KMCSingleStateReaction.computeCriticalNumberOfReactions ⟨[0], [1], 1⟩ ⟨[6]⟩
            = specCritNumSingle ⟨[0], [1], 1⟩ ⟨[6]⟩ ∧
          ((∀ i, ¬ KMCSingleStateReaction.stateChange ⟨[0], [1], 1⟩ i < 0) →
            KMCSingleStateReaction.computeCriticalNumberOfReactions ⟨[0], [1], 1⟩ ⟨[6]⟩
              = Tmax))) :=
  ⟨⟨by decide, by decide, by decide, by decide⟩,
    critical_number_of_reactions ⟨[0, 0, 1], [1], [], 1⟩ ⟨[0], [1], 1⟩ ⟨[4, 9], []⟩ ⟨[6]⟩
      (by decide) (by decide) (by decide) (by decide)⟩

theorem map_zero_eq_replicate (l : List ℤ) :
    l.map (fun _ => (0 : ℤ)) = List.replicate l.length 0 := by
  induction l with
  | nil => rfl
  | cons x rest ih => simp [List.replicate_succ, ih]

/-- One entry of `getNu` equals the specification's cached state-change
vector, for any populations. -/
theorem getNu_entry (st : KMCDualState) (r : KMCDualStateReaction) :
    (let preState := st.linearOut.map (fun _ => (0 : ℤ))
     let state := st.linearIn preState
     let postState := (advanceState r 1 state).linearOut
     List.zipWith (fun a b => a - b) postState preState) = specNu st r := by
  cases st with
  | mk re nr =>
    have hlen : (KMCDualState.linearOut ⟨re, nr⟩).length = re.length + nr.length := by
      simp [KMCDualState.linearOut]
    simp only [map_zero_eq_replicate, hlen]
    have hin : KMCDualState.linearIn ⟨re, nr⟩ (List.replicate (re.length + nr.length) 0)
        = ⟨List.replicate re.length 0, List.replicate nr.length 0⟩ := by
      simp [KMCDualState.linearIn, List.take_replicate, List.drop_replicate,
        Nat.min_self, Nat.le_add_right, Nat.min_eq_left]
    rw [hin]
    have hadv : advanceState r 1 ⟨List.replicate re.length 0, List.replicate nr.length 0⟩
        = ⟨(List.range re.length).map (reactiveStateChange r),
           (List.range nr.length).map (nonReactiveStateChange r)⟩ := by
      rw [advanceState]
      rw [advanceFrom_replicate_zero, advanceFrom_replicate_zero]
      rw [List.range_eq_range' re.length, List.range_eq_range' nr.length]
      simp
    rw [hadv]
    have hlen2 : ((⟨(List.range re.length).map (reactiveStateChange r),
        (List.range nr.length).map (nonReactiveStateChange r)⟩ :
          KMCDualState).linearOut).length = re.length + nr.length := by
      simp [KMCDualState.linearOut]
    rw [← hlen2, zipWith_sub_replicate_zero]
    simp [KMCDualState.linearOut, specNu]

/-- Claim C10: the per-reaction state-change vectors recomputed by the
solver's `getNu` (firing each reaction once on a zeroed copy of the state and
differencing the linearizations) equal, entry for entry, the net
stoichiometric changes cached by the reactions — the reactive entries
followed by the non-reactive ones, `0` for unaffected species — and the
result is independent of the populations of the given state. -/
theorem getNu_eq_cached_state_changes (s : KMCDualState)
    (rs : List KMCDualStateReaction)
    (hwf : ∀ r ∈ rs, (∀ i ∈ r.lhsReactives, i < s.reactiveState.length) ∧
      (∀ i ∈ r.rhsReactives, i < s.reactiveState.length) ∧
      (∀ i ∈ r.rhsNonReactives, i < s.nonReactiveState.length)) :
    getNu s rs = rs.map (specNu s) ∧
      ∀ s2 : KMCDualState, s2.reactiveState.length = s.reactiveState.length →
        s2.nonReactiveState.length = s.nonReactiveState.length →
        getNu s2 rs = getNu s rs := by
  have hmain : ∀ st : KMCDualState, getNu st rs = rs.map (specNu st) := by
    intro st
    rw [getNu]
    apply List.map_congr_left
    intro r _
    exact getNu_entry st r
  refine ⟨hmain s, ?_⟩
  intro s2 h1 h2
  rw [hmain s2, hmain s]
  apply List.map_congr_left
  intro r _
  rw [specNu, specNu, h1, h2]

theorem getNu_eq_cached_state_changes_witness :
    (∀ r ∈ [(⟨[0], [1], [0], 2⟩ : KMCDualStateReaction)],
        (∀ i ∈ r.lhsReactives, i < ([(5 : ℤ), 7] : List ℤ).length) ∧
          (∀ i ∈ r.rhsReactives, i < ([(5 : ℤ), 7] : List ℤ).length) ∧
          (∀ i ∈ r.rhsNonReactives, i < ([(3 : ℤ)] : List ℤ).length)) ∧
      (getNu ⟨[5, 7], [3]⟩ [⟨[0], [1], [0], 2⟩]
          = [⟨[0], [1], [0], 2⟩].map (specNu ⟨[5, 7], [3]⟩) ∧
        ∀ s2 : KMCDualState,
          s2.reactiveState.length = (⟨[5, 7], [3]⟩ : KMCDualState).reactiveState.length →
          s2.nonReactiveState.length = (⟨[5, 7], [3]⟩ : KMCDualState).nonReactiveState.length →
          getNu s2 [⟨[0], [1], [0], 2⟩] = getNu ⟨[5, 7], [3]⟩ [⟨[0], [1], [0], 2⟩]) :=
  ⟨by decide, getNu_eq_cached_state_changes ⟨[5, 7], [3]⟩ [⟨[0], [1], [0], 2⟩] (by decide)⟩

/-- Claim C6 (amended): `getNonCriticalTimeStep` returns the minimum of the
per-species bound `min(f/mu, f²/sigma2)` over the distinct species occurring
among the *reactants* of the non-critical reactions whose population is
positive (not over every touched species), with each partial bound kept at
the maximum representable Real unless its denominator exceeds the smallest
positive Real, and the maximum representable Real when no species yields a
bound. -/
theorem non_critical_time_step_reactant_bound (eps : ℚ) (s : KMCDualState)
    (rs : List KMCDualStateReaction) (props : List ℚ) :
    getNonCriticalTimeStep eps s rs props = reactantNonCritBound eps s rs props := by
  cases rs with
  | nil => rfl
  | cons r0 rest =>
    simp only [getNonCriticalTimeStep, reactantNonCritBound]
    rw [foldl_min_filter (fun i => 0 < population r0 i s)
      (fun i => speciesTimeStep eps (population r0 i s) i ((r0 :: rest).zip props))
      (cppUnique (((r0 :: rest).map (fun r => r.lhsReactives)).flatten)) realMax]
    apply minList_eq_of_mem_iff
    intro x
    simp only [List.mem_map, List.mem_filter, decide_eq_true_eq]
    constructor
    · rintro ⟨i, ⟨hm, hp⟩, rfl⟩
      exact ⟨i, ⟨mem_dedupKL.2 (mem_cppUnique.1 hm), hp⟩, rfl⟩
    · rintro ⟨i, ⟨hm, hp⟩, rfl⟩
      exact ⟨i, ⟨mem_cppUnique.2 (mem_dedupKL.1 hm), hp⟩, rfl⟩

set_option maxRecDepth 10000 in
/-- Counterexample to claim C6 as stated: for the single non-critical
reaction `A → B` with rate `1`, populations `A = 4`, `B = 1`, propensity
vector `[4]`, and `eps = 8`, the code returns `2` (it only considers the
reactant `A`), while the claimed minimum over every *touched* species also
includes the product `B`, whose bound `min(f/mu, f²/sigma2)
= min(2/4, 4/4) = 1/2` is smaller: the claimed value is `1/2 ≠ 2`. -/
theorem non_critical_time_step_counterexample :
    getNonCriticalTimeStep 8 ⟨[4, 1], []⟩ [⟨[0], [1], [], 1⟩] [4] = 2 ∧
      specNonCriticalTimeStep 8 ⟨[4, 1], []⟩ [⟨[0], [1], [], 1⟩] [4] = 1/2 ∧
      (2 : ℚ) ≠ 1/2 := by
  refine ⟨?_, ?_, by norm_num⟩
  · with_unfolding_all decide
  · with_unfolding_all decide

theorem ssaSelect_spec :
    ∀ (l : List ℚ) (thr acc : ℚ) (i r : ℕ),
      ssaSelect thr acc i l = some r →
      i ≤ r ∧ r - i < l.length ∧ thr ≤ acc + listSum (l.take (r - i + 1)) ∧
        ∀ j, j < r - i → acc + listSum (l.take (j + 1)) < thr := by
  intro l
  induction l with
  | nil =>
    intro thr acc i r h
    simp [ssaSelect] at h
  | cons p rest ih =>
    intro thr acc i r h
    simp only [ssaSelect] at h
    by_cases hle : thr ≤ acc + p
    · rw [if_pos hle] at h
      injection h with h
      subst h
      refine ⟨le_refl i, by simp, ?_, by omega⟩
      simpa [listSum] using hle
    · rw [if_neg hle] at h
      obtain ⟨h1, h2, h3, h4⟩ := ih thr (acc + p) (i + 1) r h
      have hri : 1 ≤ r - i := by omega
      refine ⟨by omega, by simp; omega, ?_, ?_⟩
      · have heq : r - i + 1 = (r - (i + 1) + 1) + 1 := by omega
        rw [heq, List.take_succ_cons]
        simpa [listSum, add_assoc] using h3
      · intro j hj
        cases j with
        | zero =>
          have : acc + p < thr := lt_of_not_le hle
          simpa [listSum] using this
        | succ j2 =>
          have hj2 : j2 < r - (i + 1) := by omega
          have := h4 j2 hj2
          rw [List.take_succ_cons]
          simpa [listSum, add_assoc] using this

theorem ssaSelect_isSome :
    ∀ (l : List ℚ) (thr acc : ℚ) (i : ℕ), l ≠ [] → thr ≤ acc + listSum l →
      (ssaSelect thr acc i l).isSome = true := by
  intro l
  induction l with
  | nil => intro thr acc i hne _; exact absurd rfl hne
  | cons p rest ih =>
    intro thr acc i _ hle
    simp only [ssaSelect]
    by_cases h1 : thr ≤ acc + p
    · rw [if_pos h1]; rfl
    · rw [if_neg h1]
      cases rest with
      | nil =>
        exfalso
        apply h1
        simpa [listSum] using hle
      | cons q qs =>
        apply ih thr (acc + p) (i + 1) (by simp)
        simpa [listSum, add_assoc] using hle

/-- Claim C4 (amended): for a non-empty reaction list, a propensity vector of
matching length with non-negative entries, and a uniform draw `u ∈ [0, 1)`,
`stepSSA` advances the state by exactly one firing of exactly one reaction:
the first reaction in list order whose cumulative propensity sum reaches
`u * totalPropensity` (this covers the all-zero propensity vector, where the
first reaction fires). -/
theorem step_ssa_single_firing (rs : List KMCDualStateReaction)
    (props : List ℚ) (s : KMCDualState) (u : ℚ)
    (hne : ¬ rs.length = 0) (hlen : props.length = rs.length)
    (hnn : ∀ p ∈ props, 0 ≤ p) (hu0 : 0 ≤ u) (hu1 : u < 1) :
    ∃ r, ∃ hr : r < rs.length,
      stepSSA u rs props s = some (advanceState (rs.get ⟨r, hr⟩) 1 s) ∧
      u * listSum props ≤ listSum (props.take (r + 1)) ∧
      ∀ j, j < r → listSum (props.take (j + 1)) < u * listSum props := by
  have hpne : props ≠ [] := by
    intro h
    rw [h] at hlen
    simp at hlen
    omega
  have hA : 0 ≤ listSum props := listSum_nonneg hnn
  have hthr : u * listSum props ≤ 0 + listSum props := by
    rw [zero_add]
    calc u * listSum props ≤ 1 * listSum props :=
          mul_le_mul_of_nonneg_right (le_of_lt hu1) hA
      _ = listSum props := one_mul _
  obtain ⟨r, hr⟩ := Option.isSome_iff_exists.1
    (ssaSelect_isSome props (u * listSum props) 0 0 hpne hthr)
  obtain ⟨_, hlt, hth, hfirst⟩ := ssaSelect_spec props _ 0 0 r hr
  rw [Nat.sub_zero] at hlt hth
  have hrrs : r < rs.length := hlen ▸ hlt
  refine ⟨r, hrrs, ?_, by simpa using hth, ?_⟩
  · simp only [stepSSA, if_neg hne, hr]
    rw [List.getElem?_eq_getElem hrrs]
    rfl
  · intro j hj
    have := hfirst j (by omega)
    simpa using this

/-- Counterexample to claim C4 as stated: the claim quantifies over all
propensity vectors, but for the reaction list `[A → ∅]` with the propensity
vector `[-1]` and the legitimate draw `u = 1/2`, the threshold is
`u·A = -1/2` and the only cumulative sum is `-1 < -1/2`, so the selection
loop ends with `r = numeric_limits<size_t>::max()` and the C++ dereferences
`a_reactions[r]` out of bounds (modelled as `none`): the call does not
advance the state by one firing of any reaction. -/
theorem step_ssa_counterexample :
    stepSSA (1/2) [⟨[0], [], [], 1⟩] [-1] ⟨[3], []⟩ = none := by
  with_unfolding_all decide

theorem step_ssa_single_firing_witness :
    (¬ ([⟨[0], [], [], 1⟩] : List KMCDualStateReaction).length = 0) ∧
      ([(0 : ℚ)] : List ℚ).length = ([⟨[0], [], [], 1⟩] : List KMCDualStateReaction).length ∧
      (∀ p ∈ [(0 : ℚ)], 0 ≤ p) ∧ (0 : ℚ) ≤ 0 ∧ (0 : ℚ) < 1 ∧
      (∃ r, ∃ hr : r < ([⟨[0], [], [], 1⟩] : List KMCDualStateReaction).length,
        stepSSA 0 [⟨[0], [], [], 1⟩] [0] ⟨[2], []⟩
            = some (advanceState (([⟨[0], [], [], 1⟩] :
                List KMCDualStateReaction).get ⟨r, hr⟩) 1 ⟨[2], []⟩) ∧
          0 * listSum [0] ≤ listSum (([(0 : ℚ)] : List ℚ).take (r + 1)) ∧
          ∀ j, j < r → listSum (([(0 : ℚ)] : List ℚ).take (j + 1)) < 0 * listSum [0]) :=
  ⟨by decide, by decide, by decide, le_refl 0, by norm_num,
    step_ssa_single_firing [⟨[0], [], [], 1⟩] [0] ⟨[2], []⟩ 0 (by decide) (by decide)
      (by decide) (le_refl 0) (by norm_num)⟩

/-- Claim C9 (amended): with an unrecognized leap-propagator selector,
`advanceHybrid` hits `MayDay::Error` and aborts (modelled `none`) for every
input, while `advanceTau` does *not* abort: its `default:` switch case is a
no-op, so each trial "leap" returns the unchanged (valid) state, which is
committed, and the call returns normally with the state unadvanced. -/
theorem unknown_propagator_behaviour (par : SolverParams) (O : HybridOracle)
    (Os : ℕ → StepOracle) (maxIter : ℤ) (exitTol : ℚ) (fuel : ℕ)
    (mRs rs : List KMCDualStateReaction) (dt : ℚ) (s : KMCDualState) :
    advanceHybrid par O Os .unknown fuel mRs rs dt s = none ∧
      (s.isValidState = true → 0 < dt → ¬ rs.length = 0 →
        advanceTauP maxIter exitTol Os .unknown (fuel + 1) mRs rs dt s = ([s], some s)) := by
  refine ⟨rfl, ?_⟩
  intro hv hdt hne
  rw [advanceTauP, advanceTau, if_neg hne, if_neg (not_le.2 hdt)]
  rw [advanceTauLoop]
  simp only [leapOf]
  rw [if_pos hv]
  rw [if_neg (by simp)]
  simp

theorem unknown_propagator_behaviour_witness :
    ((⟨[2], []⟩ : KMCDualState).isValidState = true ∧ (0 : ℚ) < 1 ∧
        ¬ ([⟨[1], [1], [], 1⟩] : List KMCDualStateReaction).length = 0) ∧
      (advanceHybrid ⟨0, 1, 100, 1, 10, 1/1000000⟩ ⟨fun _ => 1, fun _ => 0⟩
          (fun _ => ⟨fun _ _ => 0, fun _ _ _ => 0, fun _ _ _ => none, 0⟩)
          .unknown 3 [⟨[1], [1], [], 1⟩] [⟨[1], [1], [], 1⟩] 1 ⟨[2], []⟩ = none ∧
        ((⟨[2], []⟩ : KMCDualState).isValidState = true → (0 : ℚ) < 1 →
          ¬ ([⟨[1], [1], [], 1⟩] : List KMCDualStateReaction).length = 0 →
          advanceTauP 100 (1/1000000)
              (fun _ => ⟨fun _ _ => 0, fun _ _ _ => 0, fun _ _ _ => none, 0⟩)
              .unknown (3 + 1) [⟨[1], [1], [], 1⟩] [⟨[1], [1], [], 1⟩] 1 ⟨[2], []⟩
            = ([⟨[2], []⟩], some ⟨[2], []⟩))) :=
  ⟨⟨by decide, by norm_num, by decide⟩,
    unknown_propagator_behaviour ⟨0, 1, 100, 1, 10, 1/1000000⟩ ⟨fun _ => 1, fun _ => 0⟩
      (fun _ => ⟨fun _ _ => 0, fun _ _ _ => 0, fun _ _ _ => none, 0⟩) 100 (1/1000000) 3
      [⟨[1], [1], [], 1⟩] [⟨[1], [1], [], 1⟩] 1 ⟨[2], []⟩⟩

/-- Counterexample to claim C9 as stated: the claim requires *both* drivers
to abort on an unrecognized selector, but `advanceTau` with the `unknown`
propagator completes normally — it commits the unchanged state (the
`default:` case of its switch does nothing) and consumes the whole time
increment, returning the input state unadvanced instead of raising any
error. -/
theorem unknown_propagator_counterexample :
    advanceTauP 100 (1/1000000)
        (fun _ => ⟨fun _ _ => 0, fun _ _ _ => 0, fun _ _ _ => none, 0⟩)
        .unknown 3 [⟨[1], [1], [], 1⟩] [⟨[1], [1], [], 1⟩] 1 ⟨[2], []⟩
      = ([⟨[2], []⟩], some ⟨[2], []⟩) := by
  with_unfolding_all decide

theorem advanceTauLoop_valid (trial : ℕ → ℚ → KMCDualState → Option KMCDualState) :
    ∀ (fuel n : ℕ) (dt curTime curDt : ℚ) (s : KMCDualState)
      (acc : List KMCDualState),
      (∀ c ∈ acc, c.isValidState = true) →
      (∀ c ∈ (advanceTauLoop trial fuel n dt curTime curDt s acc).1,
          c.isValidState = true) ∧
        (∀ sf, (advanceTauLoop trial fuel n dt curTime curDt s acc).2 = some sf →
          sf.isValidState = true) := by
  intro fuel
  induction fuel with
  | zero =>
    intro n dt curTime curDt s acc hacc
    exact ⟨hacc, fun sf h => by cases h⟩
  | succ fuel ih =>
    intro n dt curTime curDt s acc hacc
    rcases htrial : trial n curDt s with _ | st
    · simp only [advanceTauLoop, htrial]
      exact ⟨hacc, fun sf h => by cases h⟩
    · simp only [advanceTauLoop, htrial]
      by_cases hv : st.isValidState = true
      · rw [if_pos hv]
        by_cases ht : curTime + curDt < dt
        · rw [if_pos ht]
          apply ih
          intro c hc
          rcases List.mem_append.1 hc with hc | hc
          · exact hacc c hc
          · rw [List.mem_singleton.1 hc]
            exact hv
        · rw [if_neg ht]
          constructor
          · intro c hc
            rcases List.mem_append.1 hc with hc | hc
            · exact hacc c hc
            · rw [List.mem_singleton.1 hc]
              exact hv
          · intro sf h
            injection h with h
            rw [← h]
            exact hv
      · rw [if_neg hv]
        exact ih (n + 1) dt curTime (curDt / 2) s acc hacc

theorem ssaLoop_leapCommits (numSSAmax : ℤ) (O : HybridOracle)
    (rs : List KMCDualStateReaction) (curDt : ℚ) :
    ∀ (fuel : ℕ) (numSSA : ℤ) (dtSSA : ℚ) (s : KMCDualState) (cnt : Counters)
      (tr : CommitTrace),
      (ssaLoop numSSAmax O rs curDt fuel numSSA dtSSA s cnt tr).1.leapCommits
        = tr.leapCommits := by
  intro fuel
  induction fuel with
  | zero => intro numSSA dtSSA s cnt tr; rfl
  | succ fuel ih =>
    intro numSSA dtSSA s cnt tr
    simp only [ssaLoop]
    by_cases hcond : dtSSA < curDt ∧ numSSA < numSSAmax
    · rw [if_pos hcond]
      by_cases hA : listSum (propensities s rs) = 0
      · rw [if_pos hA]
      · rw [if_neg hA]
        by_cases hfire : dtSSA + O.w cnt.iw / listSum (propensities s rs) < curDt
        · rw [if_pos hfire]
          rcases hss : stepSSA (O.u cnt.iu) rs (propensities s rs) s with _ | s2
          · simp only [hss]
          · simp only [hss]
            rw [ih]
        · rw [if_neg hfire]
    · rw [if_neg hcond]

theorem innerLoop_leapCommits_valid (par : SolverParams) (O : HybridOracle)
    (leap : ℕ → List KMCDualStateReaction → ℚ → KMCDualState → Option KMCDualState)
    (rs crit nonCrit : List KMCDualStateReaction) (propsCrit : List ℚ) (dt : ℚ) :
    ∀ (fuel : ℕ) (s : KMCDualState) (curTime dtCrit dtNonCrit : ℚ)
      (cnt : Counters) (tr : CommitTrace),
      (∀ c ∈ tr.leapCommits, c.isValidState = true) →
      ∀ c ∈ (innerLoop par O leap rs crit nonCrit propsCrit dt fuel s curTime
          dtCrit dtNonCrit cnt tr).1.leapCommits, c.isValidState = true := by
  intro fuel
  induction fuel with
  | zero => intro s curTime dtCrit dtNonCrit cnt tr hacc; exact hacc
  | succ fuel ih =>
    intro s curTime dtCrit dtNonCrit cnt tr hacc
    simp only [innerLoop]
    by_cases hnco : dtNonCrit < dtCrit ∨ crit.length = 0 ∨ dt - curTime < dtCrit
    · rw [if_pos hnco]
      by_cases hssa : totalPropensity s rs *
          min (dt - curTime) (min dtCrit dtNonCrit) < par.SSAlim
      · rw [if_pos hssa]
        rcases hloop : ssaLoop par.numSSA O rs
            (min (dt - curTime) (min dtCrit dtNonCrit)) (par.numSSA.toNat + 1) 0 0
            s cnt tr with ⟨tr2, res⟩
        have htr2 : tr2.leapCommits = tr.leapCommits := by
          have := ssaLoop_leapCommits par.numSSA O rs
            (min (dt - curTime) (min dtCrit dtNonCrit)) (par.numSSA.toNat + 1) 0 0
            s cnt tr
          rw [hloop] at this
          exact this
        rcases res with _ | st3
        · simp only [hloop]
          rw [htr2]
          exact hacc
        · simp only [hloop]
          rw [htr2]
          exact hacc
      · rw [if_neg hssa]
        rcases hl : leap cnt.il nonCrit (min (dt - curTime) (min dtCrit dtNonCrit)) s
          with _ | st
        · simp only [hl]
          exact hacc
        · simp only [hl]
          by_cases hv : st.isValidState = true
          · rw [if_pos hv]
            intro c hc
            rcases List.mem_append.1 hc with hc | hc
            · exact hacc c hc
            · rw [List.mem_singleton.1 hc]
              exact hv
          · rw [if_neg hv]
            exact ih s curTime dtCrit (dtNonCrit / 2) _ tr hacc
    · rw [if_neg hnco]
      rcases hss : stepSSA (O.u cnt.iu) crit propsCrit s with _ | s1
      · simp only [hss]
        exact hacc
      · simp only [hss]
        rcases hl : leap cnt.il nonCrit (min (dt - curTime) (min dtCrit dtNonCrit)) s1
          with _ | st
        · simp only [hl]
          exact hacc
        · simp only [hl]
          by_cases hv : st.isValidState = true
          · rw [if_pos hv]
            intro c hc
            rcases List.mem_append.1 hc with hc | hc
            · exact hacc c hc
            · rw [List.mem_singleton.1 hc]
              exact hv
          · rw [if_neg hv]
            exact ih s curTime dtCrit (dtNonCrit / 2) _ tr hacc

theorem outerLoop_leapCommits_valid (par : SolverParams) (O : HybridOracle)
    (leap : ℕ → List KMCDualStateReaction → ℚ → KMCDualState → Option KMCDualState)
    (rs : List KMCDualStateReaction) (dt : ℚ) :
    ∀ (fuel : ℕ) (s : KMCDualState) (curTime : ℚ) (cnt : Counters)
      (tr : CommitTrace),
      (∀ c ∈ tr.leapCommits, c.isValidState = true) →
      ∀ c ∈ (outerLoop par O leap rs dt fuel s curTime cnt tr).1.leapCommits,
        c.isValidState = true := by
  intro fuel
  induction fuel with
  | zero => intro s curTime cnt tr hacc; exact hacc
  | succ fuel ih =>
    intro s curTime cnt tr hacc
    simp only [outerLoop]
    by_cases hct : curTime < dt
    · rw [if_pos hct]
      rcases hinner : innerLoop par O leap rs
          (partitionReactions par.Ncrit s rs).1 (partitionReactions par.Ncrit s rs).2
          (propensities s (partitionReactions par.Ncrit s rs).1) dt fuel s curTime
          (O.w cnt.iw / (realMinPos +
            listSum (propensities s (partitionReactions par.Ncrit s rs).1)))
          (getNonCriticalTimeStep par.eps s (partitionReactions par.Ncrit s rs).2
            (propensities s (partitionReactions par.Ncrit s rs).2))
          {cnt with iw := cnt.iw + 1} tr with ⟨tr2, res⟩
      have htr2 : ∀ c ∈ tr2.leapCommits, c.isValidState = true := by
        have := innerLoop_leapCommits_valid par O leap rs
          (partitionReactions par.Ncrit s rs).1 (partitionReactions par.Ncrit s rs).2
          (propensities s (partitionReactions par.Ncrit s rs).1) dt fuel s curTime
          (O.w cnt.iw / (realMinPos +
            listSum (propensities s (partitionReactions par.Ncrit s rs).1)))
          (getNonCriticalTimeStep par.eps s (partitionReactions par.Ncrit s rs).2
            (propensities s (partitionReactions par.Ncrit s rs).2))
          {cnt with iw := cnt.iw + 1} tr hacc
        rw [hinner] at this
        exact this
      rcases res with _ | st3
      · simp only [hinner]
        exact htr2
      · simp only [hinner]
        exact ih st3.1 st3.2.1 st3.2.2 tr2 htr2
    · rw [if_neg hct]
      exact hacc

/-- Claim C1 (amended): `advanceTau` never commits a state with a negative
population entry — every committed state is valid, and (for a valid initial
state) so is the final state — for arbitrary reaction lists, time
increments, retry fuel, and leap propagators (modelled by the arbitrary
trial oracle).  `advanceHybrid` never commits an invalid state through its
two validity-checked leap branches (the `leapCommits` of the trace), but its
pure-SSA branch commits `stepSSA` results without validation, and those
commits can contain negative entries (see the counterexample). -/
theorem no_negative_population_commits
    (trial : ℕ → ℚ → KMCDualState → Option KMCDualState) (fuel : ℕ)
    (rs : List KMCDualStateReaction) (dt : ℚ) (s : KMCDualState)
    (par : SolverParams) (O : HybridOracle)
    (leap : ℕ → List KMCDualStateReaction → ℚ → KMCDualState → Option KMCDualState)
    (fuel2 : ℕ) (rs2 : List KMCDualStateReaction) (dt2 : ℚ) (s2 : KMCDualState)
    (hs : s.isValidState = true) :
    (∀ c ∈ (advanceTau trial fuel rs dt s).1, c.isValidState = true) ∧
      (∀ sf, (advanceTau trial fuel rs dt s).2 = some sf →
        sf.isValidState = true) ∧
      (∀ c ∈ (advanceHybridFun par O leap fuel2 rs2 dt2 s2).1.leapCommits,
        c.isValidState = true) := by
  refine ⟨?_, ?_, ?_⟩
  · rw [advanceTau]
    by_cases h0 : rs.length = 0
    · rw [if_pos h0]
      intro c hc
      cases hc
    · rw [if_neg h0]
      by_cases hdt : dt ≤ 0
      · rw [if_pos hdt]
        intro c hc
        cases hc
      · rw [if_neg hdt]
        exact (advanceTauLoop_valid trial fuel 0 dt 0 dt s [] (by intro c hc; cases hc)).1
  · rw [advanceTau]
    by_cases h0 : rs.length = 0
    · rw [if_pos h0]
      intro sf h
      injection h with h
      rw [← h]
      exact hs
    · rw [if_neg h0]
      by_cases hdt : dt ≤ 0
      · rw [if_pos hdt]
        intro sf h
        injection h with h
        rw [← h]
        exact hs
      · rw [if_neg hdt]
        exact (advanceTauLoop_valid trial fuel 0 dt 0 dt s [] (by intro c hc; cases hc)).2
  · exact outerLoop_leapCommits_valid par O leap rs2 dt2 fuel2 s2 0 ⟨0, 0, 0⟩ ⟨[], []⟩
      (by intro c hc; cases hc)

theorem no_negative_population_commits_witness :
    (⟨[2], []⟩ : KMCDualState).isValidState = true ∧
      ((∀ c ∈ (advanceTau (fun _ _ st => some st) 1 [⟨[1], [1], [], 1⟩] 1
            ⟨[2], []⟩).1, c.isValidState = true) ∧
        (∀ sf, (advanceTau (fun _ _ st => some st) 1 [⟨[1], [1], [], 1⟩] 1
            ⟨[2], []⟩).2 = some sf → sf.isValidState = true) ∧
        (∀ c ∈ (advanceHybridFun ⟨0, 1, 100, 1, 10, 1/1000000⟩
            ⟨fun _ => 1, fun _ => 0⟩ (fun _ _ _ st => some st) 1 [] 0
            ⟨[0], []⟩).1.leapCommits, c.isValidState = true)) :=
  ⟨by decide,
    no_negative_population_commits (fun _ _ st => some st) 1 [⟨[1], [1], [], 1⟩] 1
      ⟨[2], []⟩ ⟨0, 1, 100, 1, 10, 1/1000000⟩ ⟨fun _ => 1, fun _ => 0⟩
      (fun _ _ _ st => some st) 1 [] 0 ⟨[0], []⟩ (by decide)⟩

set_option maxRecDepth 40000 in
/-- Counterexample to claim C1 as stated: a concrete `advanceHybrid` run that
commits a state with a negative entry.  Configuration: `Ncrit = 0`,
`numSSA = 1`, `SSAlim = 10`; reactions `R0 : A → ∅` and `R1 : B → B`, both
with rate `1`; initial state `A = 0`, `B = 5` (valid); `dt = 1`.  Both
reactions are non-critical and there are no critical reactions, so the SSA
branch is taken (`A_total·curDt = 5 < SSAlim`).  The waiting-time draw gives
`dtReact = 1/5 < 1`, and `stepSSA` with the legitimate uniform draw `u = 0`
selects the *first* reaction (its cumulative sum `0 ≥ u·A = 0`), i.e. `R0`,
whose reactant `A` has population `0`: the state `A = -1, B = 5` is committed
into `a_state` with no validity check. -/
theorem hybrid_commits_negative_population :
    (advanceHybridFun ⟨0, 1, 100, 1, 10, 1/1000000⟩ ⟨fun _ => 1, fun _ => 0⟩
          (fun _ _ _ st => some st) 4 [⟨[0], [], [], 1⟩, ⟨[1], [1], [], 1⟩] 1
          ⟨[0, 5], []⟩).1.ssaCommits = [⟨[-1, 5], []⟩] ∧
      (⟨[-1, 5], []⟩ : KMCDualState).isValidState = false ∧
      (⟨[0, 5], []⟩ : KMCDualState).isValidState = true := by
  refine ⟨?_, by decide, by decide⟩
  with_unfolding_all decide

theorem newtonLoop_conv_of_solve_total
    (solve : ℕ → List (List ℚ) → List ℚ → Option (List ℚ))
    (computeF : List ℚ → List ℚ) (jac : List ℚ → List (List ℚ))
    (initNorm exitTol : ℚ)
    (h : ∀ k J F, (solve k J F).isSome = true) :
    ∀ (rem k : ℕ) (X : List ℚ),
      (newtonLoop solve computeF jac initNorm exitTol rem k X).2 = true := by
  intro rem
  induction rem with
  | zero => intro k X; rfl
  | succ rem ih =>
    intro k X
    rcases hs : solve k (jac X) (computeF X) with _ | d
    · exact absurd (hs ▸ h k (jac X) (computeF X)) (by simp)
    · simp only [newtonLoop, hs]
      by_cases ht : initNorm ≠ 0 ∧
          ieMaxNorm (computeF ((List.range X.length).map
            (fun i => X.getD i 0 - d.getD i 0))) / initNorm < exitTol
      · rw [if_pos ht]
      · rw [if_neg ht]
        exact ih (k + 1) _

theorem newtonLoop_false_of_solve_failure
    (solve : ℕ → List (List ℚ) → List ℚ → Option (List ℚ))
    (computeF : List ℚ → List ℚ) (jac : List ℚ → List (List ℚ))
    (initNorm exitTol : ℚ) :
    ∀ (rem k : ℕ) (X : List ℚ),
      (newtonLoop solve computeF jac initNorm exitTol rem k X).2 = false →
      ∃ k2 J2 F2, solve k2 J2 F2 = none := by
  intro rem
  induction rem with
  | zero => intro k X h; cases h
  | succ rem ih =>
    intro k X h
    rcases hs : solve k (jac X) (computeF X) with _ | d
    · exact ⟨k, jac X, computeF X, hs⟩
    · simp only [newtonLoop, hs] at h
      by_cases ht : initNorm ≠ 0 ∧
          ieMaxNorm (computeF ((List.range X.length).map
            (fun i => X.getD i 0 - d.getD i 0))) / initNorm < exitTol
      · rw [if_pos ht] at h
        cases h
      · rw [if_neg ht] at h
        exact ih (k + 1) _ h

/-- Claim C3 (amended): `stepImplicitEuler` writes the invalid sentinel state
(every linearized entry set to `-1`) exactly when the dense linear solve
signals failure at some iteration — that is the only way the `converged`
flag is cleared; whenever the solver never fails (in particular when
`maxIter` iterations elapse without the residual test triggering),
the call silently returns the rounding of the final Newton iterate, with
*no* guarantee that its residual meets the `exitTol` tolerance. -/
theorem implicit_euler_sentinel_signalling (pois : ℕ → ℕ → ℚ → ℕ)
    (innerFuel : ℕ) (solve : ℕ → List (List ℚ) → List ℚ → Option (List ℚ))
    (maxIter : ℤ) (exitTol : ℚ) (mRs rs : List KMCDualStateReaction) (dt : ℚ)
    (s : KMCDualState) (es : KMCDualState)
    (hes : (advanceTau (fun n curDt st =>
        some (stepExplicitEuler (pois n) rs curDt st)) innerFuel rs dt s).2
      = some es) :
    ((∀ k J F, (solve k J F).isSome = true) →
      stepImplicitEuler pois innerFuel solve maxIter exitTol mRs rs dt s
        = some (s.linearIn
            ((ieNewtonResult solve maxIter exitTol mRs rs dt s es).1.map llround))) ∧
      ((ieNewtonResult solve maxIter exitTol mRs rs dt s es).2 = false →
        (∃ k J F, solve k J F = none) ∧
          stepImplicitEuler pois innerFuel solve maxIter exitTol mRs rs dt s
            = some (s.linearIn (List.replicate s.linearOut.length (-1)))) := by
  constructor
  · intro hsolve
    have hconv : (ieNewtonResult solve maxIter exitTol mRs rs dt s es).2 = true := by
      rw [ieNewtonResult]
      exact newtonLoop_conv_of_solve_total solve _ _ _ exitTol hsolve _ 0 _
    simp only [stepImplicitEuler, hes, hconv, if_pos]
  · intro hfalse
    constructor
    · have := hfalse
      rw [ieNewtonResult] at this
      exact newtonLoop_false_of_solve_failure solve _ _ _ exitTol _ 0 _ this
    · simp only [stepImplicitEuler, hes, hfalse]
      rfl

theorem implicit_euler_sentinel_signalling_witness :
    ((advanceTau (fun n curDt st =>
          some (stepExplicitEuler ((fun _ _ _ => 1) n) [⟨[0], [], [], 1⟩] curDt st))
        2 [⟨[0], [], [], 1⟩] 1 ⟨[2], []⟩).2 = some ⟨[1], []⟩) ∧
      (((∀ k J F, (((fun _ _ _ => some []) : ℕ → List (List ℚ) → List ℚ →
            Option (List ℚ)) k J F).isSome = true) →
        stepImplicitEuler (fun _ _ _ => 1) 2 (fun _ _ _ => some []) 100 (1/1000000)
            [⟨[0], [], [], 1⟩] [⟨[0], [], [], 1⟩] 1 ⟨[2], []⟩
          = some ((⟨[2], []⟩ : KMCDualState).linearIn
              ((ieNewtonResult (fun _ _ _ => some []) 100 (1/1000000)
                [⟨[0], [], [], 1⟩] [⟨[0], [], [], 1⟩] 1 ⟨[2], []⟩
                ⟨[1], []⟩).1.map llround))) ∧
        ((ieNewtonResult (fun _ _ _ => some []) 100 (1/1000000) [⟨[0], [], [], 1⟩]
            [⟨[0], [], [], 1⟩] 1 ⟨[2], []⟩ ⟨[1], []⟩).2 = false →
          (∃ k J F, ((fun _ _ _ => some []) : ℕ → List (List ℚ) → List ℚ →
              Option (List ℚ)) k J F = none) ∧
            stepImplicitEuler (fun _ _ _ => 1) 2 (fun _ _ _ => some []) 100 (1/1000000)
                [⟨[0], [], [], 1⟩] [⟨[0], [], [], 1⟩] 1 ⟨[2], []⟩
              = some ((⟨[2], []⟩ : KMCDualState).linearIn
                  (List.replicate (⟨[2], []⟩ : KMCDualState).linearOut.length (-1))))) :=
  ⟨by with_unfolding_all decide,
    implicit_euler_sentinel_signalling (fun _ _ _ => 1) 2 (fun _ _ _ => some []) 100
      (1/1000000) [⟨[0], [], [], 1⟩] [⟨[0], [], [], 1⟩] 1 ⟨[2], []⟩ ⟨[1], []⟩
      (by with_unfolding_all decide)⟩

set_option maxRecDepth 40000 in
/-- Counterexample to claim C3 as stated: with the decay reaction `A → ∅`
(rate `1`), state `A = 2`, `dt = 1`, `exitTol = 10^-6` and `maxIter = 1`,
the explicit-Euler presample draws one firing (`es = [1]`), giving the
system `F(X) = X - 3 + a(round X)`.  The single Newton iteration computes
the finite-difference Jacobian `J = [[2]]` and residual `F([1]) = [-1]`, and
the solve oracle returns `[-1/2]` — exactly the solution of `J·d = F` that
`dgesv_` produces — so `X = [3/2]` with relative residual
`(1/2)/3 = 1/6 ≥ exitTol`.  The loop then exhausts `maxIter` with
`converged` still `true` and the call silently returns the rounded iterate
`[2]`: not a sentinel state, and not within the residual tolerance. -/
theorem implicit_euler_counterexample :
    stepImplicitEuler (fun _ _ _ => 1) 2 (fun _ _ _ => some [-(1/2)]) 1 (1/1000000)
        [⟨[0], [], [], 1⟩] [⟨[0], [], [], 1⟩] 1 ⟨[2], []⟩ = some ⟨[2], []⟩ ∧
      some (⟨[2], []⟩ : KMCDualState) ≠
        some ((⟨[2], []⟩ : KMCDualState).linearIn (List.replicate 1 (-1))) ∧
      ieNewtonResult (fun _ _ _ => some [-(1/2)]) 1 (1/1000000) [⟨[0], [], [], 1⟩]
          [⟨[0], [], [], 1⟩] 1 ⟨[2], []⟩ ⟨[1], []⟩ = ([3/2], true) ∧
      ¬ (ieMaxNorm (ieComputeF [⟨[0], [], [], 1⟩] ⟨[2], []⟩ 1
              (getNu ⟨[2], []⟩ [⟨[0], [], [], 1⟩]) 1
              (ieConstantTerm 1 (getNu ⟨[2], []⟩ [⟨[0], [], [], 1⟩])
                (propensities ⟨[2], []⟩ [⟨[0], [], [], 1⟩]) 1
                (⟨[1], []⟩ : KMCDualState).linearOut) [3/2])
            / ieMaxNorm (ieComputeF [⟨[0], [], [], 1⟩] ⟨[2], []⟩ 1
              (getNu ⟨[2], []⟩ [⟨[0], [], [], 1⟩]) 1
              (ieConstantTerm 1 (getNu ⟨[2], []⟩ [⟨[0], [], [], 1⟩])
                (propensities ⟨[2], []⟩ [⟨[0], [], [], 1⟩]) 1
                (⟨[1], []⟩ : KMCDualState).linearOut) (List.replicate 1 0))
          < 1/1000000) ∧
      (advanceTau (fun n curDt st =>
          some (stepExplicitEuler ((fun _ _ _ => 1) n) [⟨[0], [], [], 1⟩] curDt st))
        2 [⟨[0], [], [], 1⟩] 1 ⟨[2], []⟩).2 = some ⟨[1], []⟩ := by
  refine ⟨?_, by decide, ?_, ?_, ?_⟩ <;> with_unfolding_all decide

end KMC
